import Mathlib

/-!
# go-bgremover: luminance-threshold background removal and Gaussian blur

Shallow embedding of `main.go`.

* A `color.Color` is represented by the four `uint32` samples its method `RGBA()` returns,
  `uint8`/`uint32` arithmetic is arithmetic on `Nat` with explicit wrap-around.
* An `image.Image` is its bounds rectangle together with its `At` method; the `*image.RGBA`
  values the program allocates are a rectangle together with the stored 8-bit pixels.
* `float64` is idealised as an ordered field `F` with exact arithmetic (no rounding, no NaN);
  the functions taken from package `math` are the fields of `MathOps F`, and `realMath` is
  their instance over the real numbers.
* A run-time panic (negative `make` length, index out of range) is the `error` branch of
  `Except Panic`.
* The unbounded loop of `getNextOutputFileName` runs for a given number of iterations (fuel);
  `filepath.Join` and the test that a path exists are parameters.
-/

namespace BgRemover

/-! ## Colours and images (packages `image/color`, `image`, `image/draw`) -/

/-- The samples returned by `color.Color.RGBA()`. -/
structure Color where
  r : Nat
  g : Nat
  b : Nat
  a : Nat
deriving DecidableEq, Repr

/-- The struct `color.RGBA`, four `uint8` fields. -/
structure RGBA where
  R : Nat
  G : Nat
  B : Nat
  A : Nat
deriving DecidableEq, Repr

/-- Conversion `uint8(n)` of an unsigned integer. -/
def uint8 (n : Nat) : Nat := n % 256

/-- Method `RGBA()` of `color.RGBA`: `r = uint32(c.R); r |= r << 8`, and so on. -/
def RGBA.RGBA (c : RGBA) : Color :=
  ⟨c.R ||| (c.R <<< 8), c.G ||| (c.G <<< 8), c.B ||| (c.B <<< 8), c.A ||| (c.A <<< 8)⟩

/-- The colour `color.Transparent`, whose `RGBA()` is all zero. -/
def Transparent : Color := ⟨0, 0, 0, 0⟩

/-- The conversion `color.RGBAModel.Convert`: the high byte of every 16-bit sample. -/
def rgbaModel (c : Color) : RGBA :=
  ⟨uint8 (c.r >>> 8), uint8 (c.g >>> 8), uint8 (c.b >>> 8), uint8 (c.a >>> 8)⟩

/-- The struct `image.Point`. -/
structure Point where
  X : Int
  Y : Int
deriving DecidableEq, Repr

/-- The struct `image.Rectangle`. -/
structure Rectangle where
  Min : Point
  Max : Point
deriving DecidableEq, Repr

/-- Method `Point.In`. -/
def Point.In (p : Point) (r : Rectangle) : Prop :=
  r.Min.X ≤ p.X ∧ p.X < r.Max.X ∧ r.Min.Y ≤ p.Y ∧ p.Y < r.Max.Y

instance (p : Point) (r : Rectangle) : Decidable (p.In r) := by
  unfold Point.In; infer_instance

/-- The interface `image.Image`: `Bounds()` and `At(x, y)`. -/
structure Image where
  Bounds : Rectangle
  At : Int → Int → Color

/-- The struct `*image.RGBA`; `Pix x y` is the pixel stored for the point `(x, y)`. -/
structure RGBAImage where
  Rect : Rectangle
  Pix : Int → Int → RGBA

/-- The function `image.NewRGBA`: all pixels zero. -/
def NewRGBA (r : Rectangle) : RGBAImage := ⟨r, fun _ _ => ⟨0, 0, 0, 0⟩⟩

/-- Method `(*image.RGBA).RGBAAt`: the zero colour outside the rectangle. -/
def RGBAImage.RGBAAt (p : RGBAImage) (x y : Int) : RGBA :=
  if (Point.mk x y).In p.Rect then p.Pix x y else ⟨0, 0, 0, 0⟩

/-- Method `(*image.RGBA).At`. -/
def RGBAImage.At (p : RGBAImage) (x y : Int) : Color := (p.RGBAAt x y).RGBA

/-- Method `(*image.RGBA).SetRGBA`: no effect outside the rectangle. -/
def RGBAImage.SetRGBA (p : RGBAImage) (x y : Int) (c : RGBA) : RGBAImage :=
  if (Point.mk x y).In p.Rect then
    { p with Pix := fun x1 y1 => if x1 = x ∧ y1 = y then c else p.Pix x1 y1 }
  else p

/-- Method `(*image.RGBA).Set`: the colour is converted with `color.RGBAModel`. -/
def RGBAImage.Set (p : RGBAImage) (x y : Int) (c : Color) : RGBAImage :=
  p.SetRGBA x y (rgbaModel c)

/-- An `*image.RGBA` used as an `image.Image`. -/
def RGBAImage.toImage (p : RGBAImage) : Image := ⟨p.Rect, p.At⟩

/-- The call `draw.Draw(dst, dst.Rect, src, dst.Rect.Min, draw.Src)`. -/
def drawSrc (dst : RGBAImage) (src : Image) : RGBAImage :=
  { dst with Pix := fun x y =>
      if (Point.mk x y).In dst.Rect then rgbaModel (src.At x y) else dst.Pix x y }

/-- The values of `for i := lo; i < hi; i++`. -/
def intRange (lo hi : Int) : List Int :=
  (List.range (hi - lo).toNat).map fun (n : Nat) => lo + (n : Int)

/-! ## Background removal -/

/-- The constant `threshold`. -/
def threshold : Nat := 150

/-- The function `rgbToGray`: `uint8((r + g + b) / 3 >> 8)` on `uint32` samples. -/
def rgbToGray (c : Color) : Nat :=
  uint8 (((((c.r + c.g) % 2 ^ 32 + c.b) % 2 ^ 32) / 3) >>> 8)

/-- The test `gray > threshold` of `removeWhiteBackground`, the threshold a parameter. -/
def isBackground (t : Nat) (c : Color) : Bool := decide (rgbToGray c > t)

/-- The function `removeWhiteBackground`. -/
def removeWhiteBackground (im : Image) : RGBAImage :=
  let bounds := im.Bounds
  let dst := NewRGBA bounds
  (intRange bounds.Min.Y bounds.Max.Y).foldl (fun dst y =>
    (intRange bounds.Min.X bounds.Max.X).foldl (fun dst x =>
      if isBackground threshold (im.At x y) then dst.Set x y Transparent
      else dst.Set x y (im.At x y)) dst) dst

/-! ## Gaussian blur -/

/-- Run-time panics of the blur. -/
inductive Panic where
  | makesliceLenOutOfRange
  | indexOutOfRange
deriving DecidableEq, Repr

/-- The functions and the constant taken from package `math`. -/
structure MathOps (F : Type) where
  Exp : F → F
  Sqrt : F → F
  Pi : F

/-- The package `math` over the real numbers. -/
noncomputable def realMath : MathOps ℝ := ⟨Real.exp, Real.sqrt, Real.pi⟩

/-- The square slice-of-slices `kernel`; `cell i j` is `kernel[i][j]`. -/
structure Kernel (F : Type) where
  size : Int
  cell : Int → Int → F

section Blur

variable {F : Type} [LinearOrderedField F] [FloorRing F]

/-- The function `gaussian`. -/
def gaussian (m : MathOps F) (x sigma : F) : F :=
  m.Exp (-(x * x) / (2 * sigma * sigma)) / (m.Sqrt (2 * m.Pi) * sigma)

/-- Conversion `int(x)` of a float: truncation towards zero. -/
def truncToInt (x : F) : Int := if 0 ≤ x then ⌊x⌋ else ⌈x⌉

/-- Conversion `uint8(x)` of a float: truncation, reduced to eight bits. -/
def uint8OfFloat (x : F) : Nat := (truncToInt x % 256).toNat

/-- The allocation `make([][]float64, kernelSize)` with its rows. -/
def makeKernel (kernelSize : Int) : Except Panic (Kernel F) :=
  if 0 ≤ kernelSize then .ok ⟨kernelSize, fun _ _ => 0⟩
  else .error .makesliceLenOutOfRange

/-- The read `kernel[i][j]`. -/
def Kernel.get (k : Kernel F) (i j : Int) : Except Panic F :=
  if 0 ≤ i ∧ i < k.size ∧ 0 ≤ j ∧ j < k.size then .ok (k.cell i j)
  else .error .indexOutOfRange

/-- The write `kernel[i][j] = g`. -/
def Kernel.set (k : Kernel F) (i j : Int) (g : F) : Except Panic (Kernel F) :=
  if 0 ≤ i ∧ i < k.size ∧ 0 ≤ j ∧ j < k.size then
    .ok { k with cell := fun i1 j1 => if i1 = i ∧ j1 = j then g else k.cell i1 j1 }
  else .error .indexOutOfRange

/-- The expression `int(6*sigma + 1)`. -/
def kernelSizeOf (sigma : F) : Int := truncToInt (6 * sigma + 1)

/-- The value `g := gaussian(math.Sqrt(float64(x*x+y*y)), sigma)` of the kernel loops. -/
def rawWeight (m : MathOps F) (sigma : F) (x y : Int) : F :=
  gaussian m (m.Sqrt (((x * x + y * y : Int) : F))) sigma

/-- The loops that fill `kernel` and accumulate `sum`; the state is `(kernel, sum)`. -/
def fillKernel (m : MathOps F) (sigma : F) (kernelSize : Int) (kernel : Kernel F) :
    Except Panic (Kernel F × F) :=
  (intRange (Int.tdiv (-kernelSize) 2) (Int.tdiv kernelSize 2 + 1)).foldlM (fun st y =>
    (intRange (Int.tdiv (-kernelSize) 2) (Int.tdiv kernelSize 2 + 1)).foldlM (fun st x =>
      let g := rawWeight m sigma x y
      (st.1.set (y + Int.tdiv kernelSize 2) (x + Int.tdiv kernelSize 2) g).map
        fun kernel => (kernel, st.2 + g)) st) (kernel, 0)

/-- The loops `kernel[i][j] /= sum`. -/
def normalizeKernel (kernel : Kernel F) (sum : F) : Kernel F :=
  { kernel with cell := fun i j =>
      if 0 ≤ i ∧ i < kernel.size ∧ 0 ≤ j ∧ j < kernel.size then kernel.cell i j / sum
      else kernel.cell i j }

/-- Kernel construction of `applyGaussianBlur`. -/
def buildKernel (m : MathOps F) (sigma : F) : Except Panic (Kernel F) :=
  match makeKernel (kernelSizeOf sigma) with
  | .error e => .error e
  | .ok kernel =>
    match fillKernel m sigma (kernelSizeOf sigma) kernel with
    | .error e => .error e
    | .ok st => .ok (normalizeKernel st.1 st.2)

/-- The accumulators `r, g, b, a` of one destination pixel. -/
structure Acc (F : Type) where
  r : F
  g : F
  b : F
  a : F

/-- The two inner loops of the convolution for the destination pixel `(x, y)`. -/
def accumulate (src : Image) (kernel : Kernel F) (kernelSize w h x y : Int) :
    Except Panic (Acc F) :=
  (intRange 0 kernelSize).foldlM (fun acc ky =>
    (intRange 0 kernelSize).foldlM (fun acc kx =>
      let srcX := x + kx - Int.tdiv kernelSize 2
      let srcY := y + ky - Int.tdiv kernelSize 2
      if srcX ≥ 0 ∧ srcX < w ∧ srcY ≥ 0 ∧ srcY < h then
        let c := src.At srcX srcY
        (kernel.get ky kx).map fun k =>
          ⟨acc.r + (c.r : F) * k, acc.g + (c.g : F) * k, acc.b + (c.b : F) * k,
            acc.a + (c.a : F) * k⟩
      else .ok acc) acc) ⟨0, 0, 0, 0⟩

/-- The amount the iteration `(ky, kx)` adds to the accumulator of the channel `ch` of the
destination pixel `(x, y)`: nothing when the test on `srcX`, `srcY` fails. -/
def tap (src : Image) (kernel : Kernel F) (kernelSize w h x y : Int) (ch : Color → Nat)
    (ky kx : Int) : F :=
  if x + kx - Int.tdiv kernelSize 2 ≥ 0 ∧ x + kx - Int.tdiv kernelSize 2 < w ∧
      y + ky - Int.tdiv kernelSize 2 ≥ 0 ∧ y + ky - Int.tdiv kernelSize 2 < h then
    (ch (src.At (x + kx - Int.tdiv kernelSize 2) (y + ky - Int.tdiv kernelSize 2)) : F) *
      kernel.cell ky kx
  else 0

/-- Specification of the convolution, written from the spec and not from the loops: the sum
`S` over exactly the kernel cells `(kx, ky)` of a `k` by `k` kernel whose source coordinate
`(x + kx - k/2, y + ky - k/2)` lies inside `[0,w) x [0,h)`, of the 16-bit value of the
channel `ch` there times `kernel[ky][kx]`. -/
def blurSum (src : Image) (kernel : Int → Int → F) (k w h x y : Int) (ch : Color → Nat) : F :=
  ∑ p ∈ (Finset.Ico (0 : Int) k ×ˢ Finset.Ico (0 : Int) k).filter (fun p : Int × Int =>
      0 ≤ x + p.1 - k / 2 ∧ x + p.1 - k / 2 < w ∧ 0 ≤ y + p.2 - k / 2 ∧ y + p.2 - k / 2 < h),
    (ch (src.At (x + p.1 - k / 2) (y + p.2 - k / 2)) : F) * kernel p.2 p.1

/-- The kernel weight covered by the taps of the destination pixel `(x, y)` that pass the
test on `srcX`, `srcY`. -/
def coverage (kernel : Kernel F) (kernelSize w h x y : Int) : F :=
  ∑ ky ∈ Finset.Ico 0 kernelSize, ∑ kx ∈ Finset.Ico 0 kernelSize,
    if x + kx - Int.tdiv kernelSize 2 ≥ 0 ∧ x + kx - Int.tdiv kernelSize 2 < w ∧
        y + ky - Int.tdiv kernelSize 2 ≥ 0 ∧ y + ky - Int.tdiv kernelSize 2 < h then
      kernel.cell ky kx
    else 0

/-- The accumulators after the inner loops: per channel, the sum of the taps. -/
def accSum (src : Image) (kernel : Kernel F) (kernelSize w h x y : Int) : Acc F :=
  ⟨∑ ky ∈ Finset.Ico 0 kernelSize, ∑ kx ∈ Finset.Ico 0 kernelSize,
      tap src kernel kernelSize w h x y Color.r ky kx,
    ∑ ky ∈ Finset.Ico 0 kernelSize, ∑ kx ∈ Finset.Ico 0 kernelSize,
      tap src kernel kernelSize w h x y Color.g ky kx,
    ∑ ky ∈ Finset.Ico 0 kernelSize, ∑ kx ∈ Finset.Ico 0 kernelSize,
      tap src kernel kernelSize w h x y Color.b ky kx,
    ∑ ky ∈ Finset.Ico 0 kernelSize, ∑ kx ∈ Finset.Ico 0 kernelSize,
      tap src kernel kernelSize w h x y Color.a ky kx⟩

/-- The colour written by `dst.SetRGBA` for the accumulators `acc`. -/
def accToRGBA (acc : Acc F) : RGBA :=
  ⟨uint8OfFloat (acc.r / 0x101), uint8OfFloat (acc.g / 0x101), uint8OfFloat (acc.b / 0x101),
    uint8OfFloat (acc.a / 0x101)⟩

/-- The two outer loops of the convolution. -/
def convolve (src : Image) (kernel : Kernel F) (kernelSize : Int) (dst : RGBAImage) :
    Except Panic RGBAImage :=
  let bounds := src.Bounds
  let w := bounds.Max.X - bounds.Min.X
  let h := bounds.Max.Y - bounds.Min.Y
  (intRange 0 h).foldlM (fun dst y =>
    (intRange 0 w).foldlM (fun dst x =>
      (accumulate src kernel kernelSize w h x y).map fun acc =>
        dst.SetRGBA (x + bounds.Min.X) (y + bounds.Min.Y) (accToRGBA acc)) dst) dst

/-- The function `applyGaussianBlur`. -/
def applyGaussianBlur (m : MathOps F) (src : Image) (sigma : F) : Except Panic RGBAImage :=
  let bounds := src.Bounds
  let dst := drawSrc (NewRGBA bounds) src
  match buildKernel m sigma with
  | .error e => .error e
  | .ok kernel => convolve src kernel (kernelSizeOf sigma) dst

/-- The constant `sigma`. -/
def sigma : F := 1

/-- The two stages as `main` chains them. -/
def pipeline (m : MathOps F) (im : Image) : Except Panic RGBAImage :=
  applyGaussianBlur m (removeWhiteBackground im).toImage sigma

end Blur

/-! ## Sample inputs -/

/-- A 1x1 image whose pixel has a 16-bit red sample that is no multiple of 257. -/
def deepImage : Image := ⟨⟨⟨0, 0⟩, ⟨1, 1⟩⟩, fun _ _ => ⟨0x1234, 0, 0, 0xffff⟩⟩

/-- A 1x1 opaque 16-bit image of luminance 150 whose 8-bit reduction has luminance 151. -/
def edgeImage : Image := ⟨⟨⟨0, 0⟩, ⟨1, 1⟩⟩, fun _ _ => ⟨38400, 38656, 38656, 65535⟩⟩

/-- A 2x2 image stored with 8 bits per channel: one white pixel, three dark ones. -/
def smallImage : Image :=
  (({ Rect := ⟨⟨0, 0⟩, ⟨2, 2⟩⟩,
      Pix := fun x y => if x = 0 ∧ y = 0 then ⟨255, 255, 255, 255⟩ else ⟨10, 20, 30, 255⟩ } :
    RGBAImage)).toImage

/-- A 3x3 image stored with 8 bits per channel, every pixel `(10, 20, 30, 255)`. -/
def flatImage : Image :=
  (({ Rect := ⟨⟨0, 0⟩, ⟨3, 3⟩⟩, Pix := fun _ _ => ⟨10, 20, 30, 255⟩ } : RGBAImage)).toImage

/-- A 1x1 image whose pixel has a 16-bit alpha sample that is no multiple of 257. -/
def faintImage : Image := ⟨⟨⟨0, 0⟩, ⟨1, 1⟩⟩, fun _ _ => ⟨0, 0, 0, 0x1234⟩⟩

/-- A 3x3 image stored with 8 bits per channel, every pixel opaque white. -/
def whiteImage : Image :=
  (({ Rect := ⟨⟨0, 0⟩, ⟨3, 3⟩⟩, Pix := fun _ _ => ⟨255, 255, 255, 255⟩ } : RGBAImage)).toImage

/-- A 1x1 image stored with 8 bits per channel: one opaque black pixel at `(0, 0)`. -/
def blackPixel : Image :=
  (({ Rect := ⟨⟨0, 0⟩, ⟨1, 1⟩⟩, Pix := fun _ _ => ⟨0, 0, 0, 255⟩ } : RGBAImage)).toImage

/-- A 1x1 image stored with 8 bits per channel: one opaque white pixel at `(0, 0)`. -/
def originPixel : Image :=
  (({ Rect := ⟨⟨0, 0⟩, ⟨1, 1⟩⟩, Pix := fun _ _ => ⟨255, 255, 255, 255⟩ } : RGBAImage)).toImage

/-- The same pixel grid with bounds starting at `(1, 0)`: one opaque white pixel at
`(1, 0)`. -/
def shiftedPixel : Image :=
  (({ Rect := ⟨⟨1, 0⟩, ⟨2, 1⟩⟩, Pix := fun _ _ => ⟨255, 255, 255, 255⟩ } : RGBAImage)).toImage

/-! ## The convolution with checked reads -/

/-- The read `src.At(x, y)` as an index into a `w` by `h` grid: it fails outside
`[0,w) x [0,h)`. -/
def Image.AtChecked (src : Image) (w h x y : Int) : Except Panic Color :=
  if 0 ≤ x ∧ x < w ∧ 0 ≤ y ∧ y < h then .ok (src.At x y) else .error .indexOutOfRange

section Checked

variable {F : Type} [LinearOrderedField F] [FloorRing F]

/-- The inner loops of the convolution, every source read made through `AtChecked`. -/
def accumulateChecked (src : Image) (kernel : Kernel F) (kernelSize w h x y : Int) :
    Except Panic (Acc F) :=
  (intRange 0 kernelSize).foldlM (fun acc ky =>
    (intRange 0 kernelSize).foldlM (fun acc kx =>
      let srcX := x + kx - Int.tdiv kernelSize 2
      let srcY := y + ky - Int.tdiv kernelSize 2
      if srcX ≥ 0 ∧ srcX < w ∧ srcY ≥ 0 ∧ srcY < h then
        match src.AtChecked w h srcX srcY with
        | .error e => .error e
        | .ok c =>
          (kernel.get ky kx).map fun k =>
            ⟨acc.r + (c.r : F) * k, acc.g + (c.g : F) * k, acc.b + (c.b : F) * k,
              acc.a + (c.a : F) * k⟩
      else .ok acc) acc) ⟨0, 0, 0, 0⟩

/-- The outer loops of the convolution over `accumulateChecked`. -/
def convolveChecked (src : Image) (kernel : Kernel F) (kernelSize : Int) (dst : RGBAImage) :
    Except Panic RGBAImage :=
  let bounds := src.Bounds
  let w := bounds.Max.X - bounds.Min.X
  let h := bounds.Max.Y - bounds.Min.Y
  (intRange 0 h).foldlM (fun dst y =>
    (intRange 0 w).foldlM (fun dst x =>
      (accumulateChecked src kernel kernelSize w h x y).map fun acc =>
        dst.SetRGBA (x + bounds.Min.X) (y + bounds.Min.Y) (accToRGBA acc)) dst) dst

/-- The function `applyGaussianBlur` with every source read made through `AtChecked`. -/
def applyGaussianBlurChecked (m : MathOps F) (src : Image) (sigma : F) :
    Except Panic RGBAImage :=
  let bounds := src.Bounds
  let dst := drawSrc (NewRGBA bounds) src
  match buildKernel m sigma with
  | .error e => .error e
  | .ok kernel => convolveChecked src kernel (kernelSizeOf sigma) dst

end Checked

/-! ## Range of an output channel -/

/-- Statement of "never brightens, never overflows" for one channel of the destination pixel
`(x, y)`: with `S = blurSum` the accumulated value of the channel `ch` and `o` the output
channel, `S / 257` lies in `[0, 255]`, `o` is its integer part, `o` is at most every bound
`M` on the 8-bit values (16-bit sample at most `257 * M`) of the source pixels read by the
taps that pass the test, and some such tap reads a pixel whose 8-bit value is at least `o`. -/
def ChannelInRange {F : Type} [LinearOrderedField F] [FloorRing F] (src : Image)
    (kernel : Int → Int → F) (k w h x y : Int) (ch : Color → Nat) (o : Nat) : Prop :=
  0 ≤ blurSum src kernel k w h x y ch / 257 ∧
  blurSum src kernel k w h x y ch / 257 ≤ 255 ∧
  (o : Int) = ⌊blurSum src kernel k w h x y ch / 257⌋ ∧
  (∀ M : Nat,
    (∀ ky kx : Int, 0 ≤ ky → ky < k → 0 ≤ kx → kx < k →
      (0 ≤ x + kx - k / 2 ∧ x + kx - k / 2 < w ∧ 0 ≤ y + ky - k / 2 ∧ y + ky - k / 2 < h) →
      ch (src.At (x + kx - k / 2) (y + ky - k / 2)) ≤ 257 * M) → o ≤ M) ∧
  ∃ ky kx : Int, (0 ≤ ky ∧ ky < k) ∧ (0 ≤ kx ∧ kx < k) ∧
    (0 ≤ x + kx - k / 2 ∧ x + kx - k / 2 < w ∧ 0 ≤ y + ky - k / 2 ∧ y + ky - k / 2 < h) ∧
    257 * o ≤ ch (src.At (x + kx - k / 2) (y + ky - k / 2))

/-! ## Output file name -/

/-- The loop of `filepath.Ext` over the characters of the path from its end; `acc` holds the
characters already passed. It stops at a path separator and returns the suffix that starts
at the first dot met. -/
def extScan : List Char → List Char → List Char
  | [], _ => []
  | ch :: rest, acc =>
    if ch = '/' then [] else if ch = '.' then '.' :: acc else extScan rest (ch :: acc)

/-- The function `filepath.Ext`. -/
def Ext (path : String) : String := String.mk (extScan path.data.reverse [])

/-- The expression `baseFileName[:len(baseFileName)-len(fileExt)]`. -/
def baseNameOf (baseFileName : String) : String :=
  String.mk (baseFileName.data.take
    (baseFileName.data.length - (Ext baseFileName).data.length))

/-- The variable `outputDir`. -/
def outputDir : String := "saved"

/-- The value of `outputFilePath` in the iteration with number `fileNum`; `join` is
`filepath.Join`. -/
def outputFilePath (join : String → String → String) (baseFileName : String)
    (fileNum : Nat) : String :=
  join outputDir (baseNameOf baseFileName ++ toString fileNum ++ Ext baseFileName)

/-- The loop of `getNextOutputFileName` from the number `fileNum`, run for at most `fuel`
iterations; `pathExists p` is false exactly when `os.Stat(p)` reports that `p` does not
exist. -/
def nextFrom (pathExists : String → Bool) (join : String → String → String)
    (baseFileName : String) : Nat → Nat → Option String
  | 0, _ => none
  | fuel + 1, fileNum =>
    if pathExists (outputFilePath join baseFileName fileNum) then
      nextFrom pathExists join baseFileName fuel (fileNum + 1)
    else some (outputFilePath join baseFileName fileNum)

/-- The function `getNextOutputFileName`, run for at most `fuel` iterations. -/
def getNextOutputFileName (pathExists : String → Bool) (join : String → String → String)
    (baseFileName : String) (fuel : Nat) : Option String :=
  nextFrom pathExists join baseFileName fuel 1

/-- A sample base file name. -/
def sampleBase : String := "out.png"

/-- A sample `filepath.Join` for two clean relative elements. -/
def sampleJoin (dir name : String) : String := dir ++ "/" ++ name

/-- A sample file system in which only `saved/out1.png` exists. -/
def sampleExists (p : String) : Bool := p == "saved/out1.png"

/-- The path expected for `sampleBase` in `sampleExists`. -/
def sampleNext : String := "saved/out2.png"

/-! ## Lemmas on loops -/

theorem mem_intRange (lo hi a : Int) : a ∈ intRange lo hi ↔ lo ≤ a ∧ a < hi := by
  unfold intRange
  simp only [List.mem_map, List.mem_range]
  constructor
  · rintro ⟨n, hn, rfl⟩
    constructor <;> omega
  · rintro ⟨h1, h2⟩
    refine ⟨(a - lo).toNat, ?_, ?_⟩
    · omega
    · omega

/-- Invariant rule for a `for` loop without failure. -/
theorem foldl_inv {σ β : Type} (f : σ → β → σ) (P : List β → σ → Prop) (l : List β)
    (hstep : ∀ pre a s, a ∈ l → P pre s → P (pre ++ [a]) (f s a))
    (s : σ) (h0 : P [] s) : P l (l.foldl f s) := by
  suffices h : ∀ (suf pre : List β) (s : σ), (∀ a ∈ suf, a ∈ l) → P pre s →
      P (pre ++ suf) (suf.foldl f s) by
    simpa using h l [] s (fun _ ha => ha) h0
  intro suf
  induction suf with
  | nil => intro pre s _ hP; simpa using hP
  | cons a t ih =>
    intro pre s hmem hP
    have h1 := hstep pre a s (hmem a (List.mem_cons_self a t)) hP
    have h2 := ih (pre ++ [a]) (f s a) (fun b hb => hmem b (List.mem_cons_of_mem a hb)) h1
    simpa using h2

/-- Invariant rule for a `for` loop whose body may panic. -/
theorem foldlM_inv {σ β : Type} (f : σ → β → Except Panic σ) (P : List β → σ → Prop)
    (l : List β)
    (hstep : ∀ pre a s, a ∈ l → P pre s → ∃ s1, f s a = .ok s1 ∧ P (pre ++ [a]) s1)
    (s : σ) (h0 : P [] s) : ∃ s1, l.foldlM f s = .ok s1 ∧ P l s1 := by
  suffices h : ∀ (suf pre : List β) (s : σ), (∀ a ∈ suf, a ∈ l) → P pre s →
      ∃ s1, suf.foldlM f s = .ok s1 ∧ P (pre ++ suf) s1 by
    simpa using h l [] s (fun _ ha => ha) h0
  intro suf
  induction suf with
  | nil => intro pre s _ hP; exact ⟨s, rfl, by simpa using hP⟩
  | cons a t ih =>
    intro pre s hmem hP
    obtain ⟨s1, h1, hP1⟩ := hstep pre a s (hmem a (List.mem_cons_self a t)) hP
    obtain ⟨s2, h2, hP2⟩ := ih (pre ++ [a]) s1 (fun b hb => hmem b (List.mem_cons_of_mem a hb)) hP1
    refine ⟨s2, ?_, by simpa using hP2⟩
    rw [List.foldlM_cons, h1]
    exact h2

/-! ## Lemmas on background removal -/

/-- The pixel stored by the body of the loops of `removeWhiteBackground`. -/
theorem set_body (im : Image) (d : RGBAImage) (x y : Int) (hin : (Point.mk x y).In d.Rect) :
    (if isBackground threshold (im.At x y) then d.Set x y Transparent
      else d.Set x y (im.At x y)) =
    { d with Pix := fun x1 y1 => if x1 = x ∧ y1 = y then
        (if isBackground threshold (im.At x y) then rgbaModel Transparent
          else rgbaModel (im.At x y)) else d.Pix x1 y1 } := by
  unfold RGBAImage.Set RGBAImage.SetRGBA
  by_cases hb : isBackground threshold (im.At x y) = true <;> simp [hb, hin]

/-- Every pixel of the result of `removeWhiteBackground`. -/
theorem removeWhiteBackground_spec (im : Image) :
    (removeWhiteBackground im).Rect = im.Bounds ∧
    ∀ x y, (removeWhiteBackground im).Pix x y =
      if (Point.mk x y).In im.Bounds then
        (if isBackground threshold (im.At x y) then rgbaModel Transparent
          else rgbaModel (im.At x y))
      else ⟨0, 0, 0, 0⟩ := by
  unfold removeWhiteBackground
  have key := foldl_inv
    (fun dst y => (intRange im.Bounds.Min.X im.Bounds.Max.X).foldl (fun dst x =>
      if isBackground threshold (im.At x y) then dst.Set x y Transparent
      else dst.Set x y (im.At x y)) dst)
    (fun pre d => d.Rect = im.Bounds ∧ ∀ x y, d.Pix x y =
      if y ∈ pre ∧ im.Bounds.Min.X ≤ x ∧ x < im.Bounds.Max.X then
        (if isBackground threshold (im.At x y) then rgbaModel Transparent
          else rgbaModel (im.At x y))
      else ⟨0, 0, 0, 0⟩)
    (intRange im.Bounds.Min.Y im.Bounds.Max.Y) ?_ (NewRGBA im.Bounds) ?_
  · obtain ⟨h1, h2⟩ := key
    refine ⟨h1, fun x y => ?_⟩
    rw [h2 x y]
    simp only [mem_intRange, Point.In]
    by_cases hx : im.Bounds.Min.X ≤ x <;> by_cases hx2 : x < im.Bounds.Max.X <;>
      by_cases hy : im.Bounds.Min.Y ≤ y <;> by_cases hy2 : y < im.Bounds.Max.Y <;>
      simp [hx, hx2, hy, hy2]
  · intro pre y d0 hy ⟨hR, hP⟩
    rw [mem_intRange] at hy
    have inner := foldl_inv
      (fun dst x => if isBackground threshold (im.At x y) then dst.Set x y Transparent
        else dst.Set x y (im.At x y))
      (fun pre d => d.Rect = im.Bounds ∧ ∀ x1 y1, d.Pix x1 y1 =
        if y1 = y ∧ x1 ∈ pre then
          (if isBackground threshold (im.At x1 y1) then rgbaModel Transparent
            else rgbaModel (im.At x1 y1))
        else d0.Pix x1 y1)
      (intRange im.Bounds.Min.X im.Bounds.Max.X) ?_ d0 ?_
    · obtain ⟨h1, h2⟩ := inner
      refine ⟨h1, fun x1 y1 => ?_⟩
      rw [h2 x1 y1, hP x1 y1]
      simp only [mem_intRange, List.mem_append, List.mem_singleton]
      by_cases e : y1 = y
      · subst e
        by_cases hx : im.Bounds.Min.X ≤ x1 <;> by_cases hx2 : x1 < im.Bounds.Max.X <;>
          simp [hx, hx2]
      · simp [e]
    · intro pre1 x d hx ⟨hR1, hP1⟩
      rw [mem_intRange] at hx
      have hin : (Point.mk x y).In d.Rect := by
        rw [hR1]; exact ⟨hx.1, hx.2, hy.1, hy.2⟩
      beta_reduce
      rw [set_body im d x y hin]
      refine ⟨hR1, fun x1 y1 => ?_⟩
      simp only [hP1 x1 y1, List.mem_append, List.mem_singleton]
      by_cases e : y1 = y
      · subst e
        by_cases e2 : x1 = x
        · subst e2; simp
        · simp [e2]
      · simp [e]
    · exact ⟨hR, fun x1 y1 => by simp⟩
  · exact ⟨rfl, fun x y => by simp [NewRGBA]⟩

set_option maxRecDepth 20000 in
/-- A `color.RGBA` value read through `RGBA()` and converted back is itself. -/
theorem rgbaModel_RGBA (c : RGBA) (hR : c.R < 256) (hG : c.G < 256) (hB : c.B < 256)
    (hA : c.A < 256) : rgbaModel c.RGBA = c := by
  have key : ∀ n, n < 256 → uint8 ((n ||| (n <<< 8)) >>> 8) = n := by
    unfold uint8; decide
  obtain ⟨R, G, B, A⟩ := c
  simp only [RGBA.RGBA, rgbaModel] at *
  rw [key R hR, key G hG, key B hB, key A hA]

set_option maxRecDepth 20000 in
/-- The samples of a `color.RGBA` value are 257 times its fields. -/
theorem RGBA_RGBA_eq (c : RGBA) (hR : c.R < 256) (hG : c.G < 256) (hB : c.B < 256)
    (hA : c.A < 256) : c.RGBA = ⟨257 * c.R, 257 * c.G, 257 * c.B, 257 * c.A⟩ := by
  have key : ∀ n, n < 256 → n ||| (n <<< 8) = 257 * n := by decide
  obtain ⟨R, G, B, A⟩ := c
  simp only [RGBA.RGBA] at *
  rw [key R hR, key G hG, key B hB, key A hA]

/-- Two `*image.RGBA` values with the same rectangle and the same pixels are equal. -/
theorem RGBAImage.ext_pix (p q : RGBAImage) (hR : p.Rect = q.Rect)
    (hP : ∀ x y, p.Pix x y = q.Pix x y) : p = q := by
  obtain ⟨r1, f1⟩ := p
  obtain ⟨r2, f2⟩ := q
  simp only at hR hP
  subst hR
  congr
  funext x y
  exact hP x y

/-! ## Lemmas on kernel construction -/

/-- A write inside the matrix succeeds. -/
theorem Kernel.set_ok {F : Type} (k : Kernel F) (i j : Int) (g : F)
    (h : 0 ≤ i ∧ i < k.size ∧ 0 ≤ j ∧ j < k.size) :
    k.set i j g =
      .ok { k with cell := fun i1 j1 => if i1 = i ∧ j1 = j then g else k.cell i1 j1 } := by
  unfold Kernel.set; rw [if_pos h]

/-- A write outside the matrix panics. -/
theorem Kernel.set_error {F : Type} (k : Kernel F) (i j : Int) (g : F)
    (h : ¬ (0 ≤ i ∧ i < k.size ∧ 0 ≤ j ∧ j < k.size)) :
    k.set i j g = .error .indexOutOfRange := by
  unfold Kernel.set; rw [if_neg h]

/-- A read inside the matrix succeeds. -/
theorem Kernel.get_ok {F : Type} (k : Kernel F) (i j : Int)
    (h : 0 ≤ i ∧ i < k.size ∧ 0 ≤ j ∧ j < k.size) : k.get i j = .ok (k.cell i j) := by
  unfold Kernel.get; rw [if_pos h]

section KernelLemmas

variable {F : Type} [LinearOrderedField F]

theorem tdiv_two_odd (c : Int) (hc : 0 ≤ c) : Int.tdiv (2 * c + 1) 2 = c := by
  rw [Int.tdiv_eq_ediv (by omega) (by norm_num)]; omega

theorem tdiv_two_neg_odd (c : Int) (hc : 0 ≤ c) : Int.tdiv (-(2 * c + 1)) 2 = -c := by
  rw [Int.neg_tdiv, tdiv_two_odd c hc]

theorem tdiv_two_even (c : Int) (hc : 0 ≤ c) : Int.tdiv (2 * c) 2 = c := by
  rw [Int.tdiv_eq_ediv (by omega) (by norm_num)]; omega

theorem tdiv_two_neg_even (c : Int) (hc : 0 ≤ c) : Int.tdiv (-(2 * c)) 2 = -c := by
  rw [Int.neg_tdiv, tdiv_two_even c hc]

/-- For an odd size `2c+1` the filling loops complete; they leave `rawWeight` in every cell
and its total in `sum`. -/
theorem fillKernel_odd (m : MathOps F) (sigma : F) (c : Int) (hc : 0 ≤ c) (kernel : Kernel F)
    (hsize : kernel.size = 2 * c + 1) (hzero : ∀ i j, kernel.cell i j = 0) :
    ∃ st, fillKernel m sigma (2 * c + 1) kernel = .ok st ∧ st.1.size = 2 * c + 1 ∧
      st.2 = ((intRange (-c) (c + 1)).map fun y =>
        ((intRange (-c) (c + 1)).map fun x => rawWeight m sigma x y).sum).sum ∧
      ∀ i j, st.1.cell i j =
        if (i - c) ∈ intRange (-c) (c + 1) ∧ (j - c) ∈ intRange (-c) (c + 1) then
          rawWeight m sigma (j - c) (i - c) else 0 := by
  unfold fillKernel
  rw [tdiv_two_odd c hc, tdiv_two_neg_odd c hc]
  have key := foldlM_inv
    (fun (st : Kernel F × F) y => (intRange (-c) (c + 1)).foldlM (fun st x =>
      let g := rawWeight m sigma x y
      (st.1.set (y + c) (x + c) g).map fun kernel => (kernel, st.2 + g)) st)
    (fun pre st => st.1.size = 2 * c + 1 ∧
      st.2 = (pre.map fun y =>
        ((intRange (-c) (c + 1)).map fun x => rawWeight m sigma x y).sum).sum ∧
      ∀ i j, st.1.cell i j =
        if (i - c) ∈ pre ∧ (j - c) ∈ intRange (-c) (c + 1) then
          rawWeight m sigma (j - c) (i - c) else 0)
    (intRange (-c) (c + 1)) ?_ (kernel, 0) ?_
  · exact key
  · intro pre y st0 hy ⟨hS, hsum, hcell⟩
    rw [mem_intRange] at hy
    have inner := foldlM_inv
      (fun (st : Kernel F × F) x =>
        let g := rawWeight m sigma x y
        (st.1.set (y + c) (x + c) g).map fun kernel => (kernel, st.2 + g))
      (fun pre1 st => st.1.size = 2 * c + 1 ∧
        st.2 = st0.2 + (pre1.map fun x => rawWeight m sigma x y).sum ∧
        ∀ i j, st.1.cell i j =
          if i - c = y ∧ (j - c) ∈ pre1 then rawWeight m sigma (j - c) (i - c)
          else st0.1.cell i j)
      (intRange (-c) (c + 1)) ?_ st0 ?_
    · obtain ⟨st1, h1, hS1, hsum1, hcell1⟩ := inner
      refine ⟨st1, h1, hS1, ?_, fun i j => ?_⟩
      · rw [hsum1, hsum]; simp
      · rw [hcell1 i j, hcell i j]
        simp only [List.mem_append, List.mem_singleton]
        by_cases e : i - c = y
        · by_cases e2 : (j - c) ∈ intRange (-c) (c + 1) <;> simp [e, e2]
        · simp [e]
    · intro pre1 x st hx ⟨hS1, hsum1, hcell1⟩
      rw [mem_intRange] at hx
      dsimp only
      rw [Kernel.set_ok st.1 (y + c) (x + c) _ (by rw [hS1]; omega)]
      refine ⟨_, rfl, hS1, ?_, fun i j => ?_⟩
      · simp only [hsum1, List.map_append, List.sum_append, List.map_cons, List.map_nil,
          List.sum_cons, List.sum_nil]
        ring
      · simp only [hcell1 i j, List.mem_append, List.mem_singleton]
        by_cases e : i - c = y
        · by_cases e2 : j - c = x
          · have e3 : i = y + c := by omega
            have e4 : j = x + c := by omega
            simp [e, e2, e3, e4]
          · have e4 : ¬ j = x + c := by omega
            simp [e, e2, e4]
        · have e3 : ¬ i = y + c := by omega
          simp [e, e3]
    · exact ⟨hS, by simp, fun i j => by simp⟩
  · exact ⟨hsize, by simp, fun i j => by simp [hzero]⟩

theorem intRange_succ (lo hi : Int) (h : lo ≤ hi) :
    intRange lo (hi + 1) = intRange lo hi ++ [hi] := by
  unfold intRange
  have e : (hi + 1 - lo).toNat = (hi - lo).toNat + 1 := by omega
  rw [e, List.range_succ, List.map_append]
  simp only [List.map_cons, List.map_nil, List.append_cancel_left_eq, List.cons.injEq,
    and_true]
  omega

theorem intRange_cons (lo hi : Int) (h : lo < hi) :
    intRange lo hi = lo :: intRange (lo + 1) hi := by
  unfold intRange
  have e : (hi - lo).toNat = (hi - (lo + 1)).toNat + 1 := by omega
  rw [e, List.range_succ_eq_map, List.map_cons, List.map_map]
  simp only [Nat.cast_zero, add_zero, List.cons.injEq, true_and]
  apply List.map_congr_left
  intro n _
  simp only [Function.comp_apply, Nat.succ_eq_add_one, Nat.cast_add, Nat.cast_one]
  omega

/-- A loop whose first iteration panics panics. -/
theorem foldlM_error_first {σ β : Type} (f : σ → β → Except Panic σ) (a : β) (t : List β)
    (s : σ) (e : Panic) (h : f s a = .error e) : (a :: t).foldlM f s = .error e := by
  rw [List.foldlM_cons, h]
  rfl

/-- A loop whose last iteration panics, after iterations that keep an invariant, panics. -/
theorem foldlM_error_last {σ β : Type} (f : σ → β → Except Panic σ) (P : σ → Prop)
    (pre : List β) (a : β) (e : Panic)
    (hpre : ∀ b s, b ∈ pre → P s → ∃ s1, f s b = .ok s1 ∧ P s1)
    (ha : ∀ s, P s → f s a = .error e) (s : σ) (hs : P s) :
    (pre ++ [a]).foldlM f s = .error e := by
  obtain ⟨s1, h1, hP1⟩ := foldlM_inv f (fun _ s => P s) pre
    (fun _ b s hb hP => hpre b s hb hP) s hs
  rw [List.foldlM_append, h1]
  show List.foldlM f s1 [a] = _
  rw [List.foldlM_cons, ha s1 hP1]
  rfl

/-- For an even size `2c` the write `kernel[y+c][c+c]` of the first row is out of range. -/
theorem fillKernel_even (m : MathOps F) (sigma : F) (c : Int) (hc : 0 ≤ c) (kernel : Kernel F)
    (hsize : kernel.size = 2 * c) :
    fillKernel m sigma (2 * c) kernel = .error .indexOutOfRange := by
  unfold fillKernel
  rw [tdiv_two_even c hc, tdiv_two_neg_even c hc]
  have houter : ∀ g : Kernel F × F → Int → Except Panic (Kernel F × F),
      g (kernel, 0) (-c) = .error .indexOutOfRange →
      (intRange (-c) (c + 1)).foldlM g (kernel, 0) = .error .indexOutOfRange := by
    intro g hg
    rw [intRange_cons (-c) (c + 1) (by omega)]
    exact foldlM_error_first g _ _ _ _ hg
  apply houter
  rw [intRange_succ (-c) c (by omega)]
  apply foldlM_error_last _ (fun st => st.1.size = 2 * c) _ _ _ _ _ _ hsize
  · intro x st hx hS
    rw [mem_intRange] at hx
    dsimp only
    rw [Kernel.set_ok st.1 (-c + c) (x + c) _ (by rw [hS]; omega)]
    exact ⟨_, rfl, hS⟩
  · intro st hS
    dsimp only
    rw [Kernel.set_error st.1 (-c + c) (c + c) _ (by rw [hS]; omega)]
    rfl

theorem intRange_nodup (lo hi : Int) : (intRange lo hi).Nodup := by
  unfold intRange
  apply List.Nodup.map _ (List.nodup_range _)
  intro a b h
  simp only at h
  omega

theorem intRange_toFinset (lo hi : Int) : (intRange lo hi).toFinset = Finset.Ico lo hi := by
  ext a
  simp [mem_intRange]

/-- The sum accumulated by a loop over `lo ≤ i < hi` is the sum over that interval. -/
theorem sum_map_intRange {M : Type} [AddCommMonoid M] (lo hi : Int) (f : Int → M) :
    ((intRange lo hi).map f).sum = ∑ i ∈ Finset.Ico lo hi, f i := by
  rw [← List.sum_toFinset f (intRange_nodup lo hi), intRange_toFinset]

theorem Ico_succ_eq_Icc (lo hi : Int) : Finset.Ico lo (hi + 1) = Finset.Icc lo hi := by
  ext a
  simp only [Finset.mem_Ico, Finset.mem_Icc]
  omega

/-- Kernel construction for an odd size `2c+1`: it succeeds, and every entry is the raw
weight of its offsets divided by the sum of the raw weights of all offsets. -/
theorem buildKernel_odd (m : MathOps F) [FloorRing F] (sigma : F) (c : Int) (hc : 0 ≤ c)
    (hk : kernelSizeOf sigma = 2 * c + 1) :
    ∃ K, buildKernel m sigma = .ok K ∧ K.size = 2 * c + 1 ∧
      ∀ i j, 0 ≤ i → i < 2 * c + 1 → 0 ≤ j → j < 2 * c + 1 →
        K.cell i j = rawWeight m sigma (j - c) (i - c) /
          ∑ y ∈ Finset.Icc (-c) c, ∑ x ∈ Finset.Icc (-c) c, rawWeight m sigma x y := by
  unfold buildKernel
  rw [hk]
  have hmk : (makeKernel (2 * c + 1) : Except Panic (Kernel F)) =
      .ok ⟨2 * c + 1, fun _ _ => 0⟩ := by
    unfold makeKernel; rw [if_pos (by omega)]
  rw [hmk]
  obtain ⟨st, hst, hS, hsum, hcell⟩ :=
    fillKernel_odd m sigma c hc ⟨2 * c + 1, fun _ _ => 0⟩ rfl (fun _ _ => rfl)
  simp only [hst]
  refine ⟨_, rfl, hS, fun i j hi hi2 hj hj2 => ?_⟩
  have hin : 0 ≤ i ∧ i < st.1.size ∧ 0 ≤ j ∧ j < st.1.size := by
    rw [hS]; exact ⟨hi, hi2, hj, hj2⟩
  simp only [normalizeKernel, if_pos hin]
  have hm : (i - c) ∈ intRange (-c) (c + 1) ∧ (j - c) ∈ intRange (-c) (c + 1) := by
    simp only [mem_intRange]; omega
  rw [hcell i j, hsum, if_pos hm]
  simp only [sum_map_intRange, Ico_succ_eq_Icc]

/-- Kernel construction for an even size `2c` panics with an index out of range. -/
theorem buildKernel_even (m : MathOps F) [FloorRing F] (sigma : F) (c : Int) (hc : 0 ≤ c)
    (hk : kernelSizeOf sigma = 2 * c) : buildKernel m sigma = .error .indexOutOfRange := by
  unfold buildKernel
  rw [hk]
  have hmk : (makeKernel (2 * c) : Except Panic (Kernel F)) = .ok ⟨2 * c, fun _ _ => 0⟩ := by
    unfold makeKernel; rw [if_pos (by omega)]
  rw [hmk]
  simp only [fillKernel_even m sigma c hc ⟨2 * c, fun _ _ => 0⟩ rfl]

/-- Kernel construction for a negative size panics in `make`. -/
theorem buildKernel_neg (m : MathOps F) [FloorRing F] (sigma : F)
    (hk : kernelSizeOf sigma < 0) : buildKernel m sigma = .error .makesliceLenOutOfRange := by
  unfold buildKernel makeKernel
  rw [if_neg (by omega)]

/-- The kernel size of a positive `sigma` is at least 1. -/
theorem kernelSizeOf_pos [FloorRing F] (sigma : F) (h : 0 < sigma) : 1 ≤ kernelSizeOf sigma := by
  unfold kernelSizeOf truncToInt
  have h1 : (1 : F) ≤ 6 * sigma + 1 := by linarith
  rw [if_pos (by linarith)]
  exact Int.le_floor.2 (by simpa using h1)

/-- The kernel size of a negative `sigma` is at most 0. -/
theorem kernelSizeOf_neg [FloorRing F] (sigma : F) (h : sigma < 0) : kernelSizeOf sigma ≤ 0 := by
  unfold kernelSizeOf truncToInt
  have h1 : 6 * sigma + 1 < 1 := by linarith
  split_ifs with h0
  · have : ⌊6 * sigma + 1⌋ < 1 := Int.floor_lt.2 (by simpa using h1)
    omega
  · exact Int.ceil_le.2 (by push_neg at h0; simpa using h0.le)

theorem kernelSizeOf_zero [FloorRing F] : kernelSizeOf (0 : F) = 1 := by
  unfold kernelSizeOf truncToInt
  norm_num

theorem kernelSizeOf_one [FloorRing F] : kernelSizeOf (1 : F) = 7 := by
  unfold kernelSizeOf truncToInt
  norm_num

theorem kernelSizeOf_half [FloorRing F] : kernelSizeOf (1 / 2 : F) = 4 := by
  unfold kernelSizeOf truncToInt
  norm_num

/-! ## Lemmas on the convolution -/

/-- The inner loops of the convolution never panic on a kernel of the size they iterate
over; each accumulator ends as the sum of its taps. -/
theorem accumulate_ok (src : Image) (kernel : Kernel F) (kernelSize w h x y : Int)
    (hsize : kernel.size = kernelSize) :
    accumulate src kernel kernelSize w h x y = .ok (accSum src kernel kernelSize w h x y) := by
  unfold accumulate
  have key := foldlM_inv
    (fun (acc : Acc F) ky => (intRange 0 kernelSize).foldlM (fun acc kx =>
      let srcX := x + kx - Int.tdiv kernelSize 2
      let srcY := y + ky - Int.tdiv kernelSize 2
      if srcX ≥ 0 ∧ srcX < w ∧ srcY ≥ 0 ∧ srcY < h then
        let c := src.At srcX srcY
        (kernel.get ky kx).map fun k =>
          ⟨acc.r + (c.r : F) * k, acc.g + (c.g : F) * k, acc.b + (c.b : F) * k,
            acc.a + (c.a : F) * k⟩
      else .ok acc) acc)
    (fun pre acc =>
      acc.r = (pre.map fun ky => ((intRange 0 kernelSize).map
        (tap src kernel kernelSize w h x y Color.r ky)).sum).sum ∧
      acc.g = (pre.map fun ky => ((intRange 0 kernelSize).map
        (tap src kernel kernelSize w h x y Color.g ky)).sum).sum ∧
      acc.b = (pre.map fun ky => ((intRange 0 kernelSize).map
        (tap src kernel kernelSize w h x y Color.b ky)).sum).sum ∧
      acc.a = (pre.map fun ky => ((intRange 0 kernelSize).map
        (tap src kernel kernelSize w h x y Color.a ky)).sum).sum)
    (intRange 0 kernelSize) ?_ ⟨0, 0, 0, 0⟩ ?_
  · obtain ⟨acc, hacc, hr, hg, hb, ha⟩ := key
    rw [hacc]
    obtain ⟨r, g, b, a⟩ := acc
    simp only [sum_map_intRange] at hr hg hb ha
    simp only [accSum, hr, hg, hb, ha]
  · intro pre ky acc0 hky ⟨hr, hg, hb, ha⟩
    rw [mem_intRange] at hky
    have inner := foldlM_inv
      (fun (acc : Acc F) kx =>
        let srcX := x + kx - Int.tdiv kernelSize 2
        let srcY := y + ky - Int.tdiv kernelSize 2
        if srcX ≥ 0 ∧ srcX < w ∧ srcY ≥ 0 ∧ srcY < h then
          let c := src.At srcX srcY
          (kernel.get ky kx).map fun k =>
            ⟨acc.r + (c.r : F) * k, acc.g + (c.g : F) * k, acc.b + (c.b : F) * k,
              acc.a + (c.a : F) * k⟩
        else .ok acc)
      (fun pre1 acc =>
        acc.r = acc0.r + (pre1.map (tap src kernel kernelSize w h x y Color.r ky)).sum ∧
        acc.g = acc0.g + (pre1.map (tap src kernel kernelSize w h x y Color.g ky)).sum ∧
        acc.b = acc0.b + (pre1.map (tap src kernel kernelSize w h x y Color.b ky)).sum ∧
        acc.a = acc0.a + (pre1.map (tap src kernel kernelSize w h x y Color.a ky)).sum)
      (intRange 0 kernelSize) ?_ acc0 ?_
    · obtain ⟨acc, hacc, hr1, hg1, hb1, ha1⟩ := inner
      refine ⟨acc, hacc, ?_, ?_, ?_, ?_⟩
      · rw [hr1, hr]; simp
      · rw [hg1, hg]; simp
      · rw [hb1, hb]; simp
      · rw [ha1, ha]; simp
    · intro pre1 kx acc hkx ⟨hr1, hg1, hb1, ha1⟩
      rw [mem_intRange] at hkx
      dsimp only
      by_cases hc : x + kx - Int.tdiv kernelSize 2 ≥ 0 ∧ x + kx - Int.tdiv kernelSize 2 < w ∧
          y + ky - Int.tdiv kernelSize 2 ≥ 0 ∧ y + ky - Int.tdiv kernelSize 2 < h
      · rw [if_pos hc, Kernel.get_ok kernel ky kx (by rw [hsize]; omega)]
        refine ⟨_, rfl, ?_, ?_, ?_, ?_⟩ <;>
          simp only [hr1, hg1, hb1, ha1, tap, if_pos hc, List.map_append, List.sum_append,
            List.map_cons, List.map_nil, List.sum_cons, List.sum_nil] <;> ring
      · rw [if_neg hc]
        refine ⟨_, rfl, ?_, ?_, ?_, ?_⟩ <;>
          simp only [hr1, hg1, hb1, ha1, tap, if_neg hc, List.map_append, List.sum_append,
            List.map_cons, List.map_nil, List.sum_cons, List.sum_nil, add_zero]
    · exact ⟨by simp, by simp, by simp, by simp⟩
  · exact ⟨by simp, by simp, by simp, by simp⟩

/-- The outer loops of the convolution succeed on a kernel of the size they iterate over:
the pixel at offset `(x, y)` from the corner of the bounds is overwritten with the converted
accumulators, every other pixel is left alone. -/
theorem convolve_ok [FloorRing F] (src : Image) (kernel : Kernel F) (kernelSize : Int)
    (dst : RGBAImage) (hsize : kernel.size = kernelSize) (hrect : dst.Rect = src.Bounds) :
    ∃ out, convolve src kernel kernelSize dst = .ok out ∧ out.Rect = src.Bounds ∧
      ∀ i j, out.Pix i j =
        if (Point.mk i j).In src.Bounds then
          accToRGBA (accSum src kernel kernelSize (src.Bounds.Max.X - src.Bounds.Min.X)
            (src.Bounds.Max.Y - src.Bounds.Min.Y) (i - src.Bounds.Min.X) (j - src.Bounds.Min.Y))
        else dst.Pix i j := by
  unfold convolve
  simp only [accumulate_ok src kernel kernelSize _ _ _ _ hsize]
  have key := foldlM_inv
    (fun (dst : RGBAImage) y =>
      (intRange 0 (src.Bounds.Max.X - src.Bounds.Min.X)).foldlM (fun dst x =>
        (Except.ok (accSum src kernel kernelSize (src.Bounds.Max.X - src.Bounds.Min.X)
          (src.Bounds.Max.Y - src.Bounds.Min.Y) x y) : Except Panic (Acc F)).map fun acc =>
          dst.SetRGBA (x + src.Bounds.Min.X) (y + src.Bounds.Min.Y) (accToRGBA acc)) dst)
    (fun pre d => d.Rect = src.Bounds ∧ ∀ i j, d.Pix i j =
      if (j - src.Bounds.Min.Y) ∈ pre ∧ src.Bounds.Min.X ≤ i ∧ i < src.Bounds.Max.X then
        accToRGBA (accSum src kernel kernelSize (src.Bounds.Max.X - src.Bounds.Min.X)
          (src.Bounds.Max.Y - src.Bounds.Min.Y) (i - src.Bounds.Min.X) (j - src.Bounds.Min.Y))
      else dst.Pix i j)
    (intRange 0 (src.Bounds.Max.Y - src.Bounds.Min.Y)) ?_ dst ?_
  · obtain ⟨out, hout, hR, hP⟩ := key
    refine ⟨out, hout, hR, fun i j => ?_⟩
    rw [hP i j]
    have e : ((j - src.Bounds.Min.Y) ∈ intRange 0 (src.Bounds.Max.Y - src.Bounds.Min.Y) ∧
        src.Bounds.Min.X ≤ i ∧ i < src.Bounds.Max.X) ↔ (Point.mk i j).In src.Bounds := by
      simp only [mem_intRange, Point.In]; omega
    by_cases hin : (Point.mk i j).In src.Bounds
    · rw [if_pos hin, if_pos (e.2 hin)]
    · rw [if_neg hin, if_neg (fun h => hin (e.1 h))]
  · intro pre y d0 hy ⟨hR, hP⟩
    rw [mem_intRange] at hy
    have inner := foldlM_inv
      (fun (dst : RGBAImage) x =>
        (Except.ok (accSum src kernel kernelSize (src.Bounds.Max.X - src.Bounds.Min.X)
          (src.Bounds.Max.Y - src.Bounds.Min.Y) x y) : Except Panic (Acc F)).map fun acc =>
          dst.SetRGBA (x + src.Bounds.Min.X) (y + src.Bounds.Min.Y) (accToRGBA acc))
      (fun pre1 d => d.Rect = src.Bounds ∧ ∀ i j, d.Pix i j =
        if j - src.Bounds.Min.Y = y ∧ (i - src.Bounds.Min.X) ∈ pre1 then
          accToRGBA (accSum src kernel kernelSize (src.Bounds.Max.X - src.Bounds.Min.X)
            (src.Bounds.Max.Y - src.Bounds.Min.Y) (i - src.Bounds.Min.X)
            (j - src.Bounds.Min.Y))
        else d0.Pix i j)
      (intRange 0 (src.Bounds.Max.X - src.Bounds.Min.X)) ?_ d0 ?_
    · obtain ⟨d1, h1, hR1, hP1⟩ := inner
      refine ⟨d1, h1, hR1, fun i j => ?_⟩
      rw [hP1 i j, hP i j]
      simp only [mem_intRange, List.mem_append, List.mem_singleton]
      by_cases e : j - src.Bounds.Min.Y = y
      · by_cases hx : src.Bounds.Min.X ≤ i <;> by_cases hx2 : i < src.Bounds.Max.X
        · have : 0 ≤ i - src.Bounds.Min.X ∧
              i - src.Bounds.Min.X < src.Bounds.Max.X - src.Bounds.Min.X := by omega
          simp [e, hx, hx2, this]
        · have : ¬ (0 ≤ i - src.Bounds.Min.X ∧
              i - src.Bounds.Min.X < src.Bounds.Max.X - src.Bounds.Min.X) := by omega
          simp [e, hx2, this]
        · have : ¬ (0 ≤ i - src.Bounds.Min.X ∧
              i - src.Bounds.Min.X < src.Bounds.Max.X - src.Bounds.Min.X) := by omega
          simp [e, hx, this]
        · have : ¬ (0 ≤ i - src.Bounds.Min.X ∧
              i - src.Bounds.Min.X < src.Bounds.Max.X - src.Bounds.Min.X) := by omega
          simp [e, hx, this]
      · simp [e]
    · intro pre1 x d hx ⟨hR1, hP1⟩
      rw [mem_intRange] at hx
      have hin : (Point.mk (x + src.Bounds.Min.X) (y + src.Bounds.Min.Y)).In d.Rect := by
        rw [hR1]; simp only [Point.In]; omega
      refine ⟨_, rfl, ?_, fun i j => ?_⟩
      · unfold RGBAImage.SetRGBA
        beta_reduce
        rw [if_pos hin]
        exact hR1
      · unfold RGBAImage.SetRGBA
        beta_reduce
        rw [if_pos hin]
        simp only [hP1 i j, List.mem_append, List.mem_singleton]
        by_cases e : j - src.Bounds.Min.Y = y
        · by_cases e2 : i - src.Bounds.Min.X = x
          · have e3 : i = x + src.Bounds.Min.X := by omega
            have e4 : j = y + src.Bounds.Min.Y := by omega
            subst e3 e4
            simp
          · have e3 : ¬ i = x + src.Bounds.Min.X := by omega
            simp [e, e2, e3]
        · have e4 : ¬ j = y + src.Bounds.Min.Y := by omega
          simp [e, e4]
    · exact ⟨hR, fun i j => by simp⟩
  · exact ⟨hrect, fun i j => by simp⟩

/-- The function `applyGaussianBlur` for an odd kernel size `2c+1`: kernel construction and
convolution both succeed, the result has the bounds of the source, and the pixel at offset
`(x, y)` from the corner of the bounds is the converted accumulators of `(x, y)`. -/
theorem applyGaussianBlur_odd [FloorRing F] (m : MathOps F) (src : Image) (sigma : F)
    (c : Int) (hc : 0 ≤ c) (hk : kernelSizeOf sigma = 2 * c + 1) :
    ∃ K out, buildKernel m sigma = .ok K ∧ K.size = 2 * c + 1 ∧
      applyGaussianBlur m src sigma = .ok out ∧ out.Rect = src.Bounds ∧
      ∀ x y, 0 ≤ x → x < src.Bounds.Max.X - src.Bounds.Min.X →
        0 ≤ y → y < src.Bounds.Max.Y - src.Bounds.Min.Y →
        out.RGBAAt (x + src.Bounds.Min.X) (y + src.Bounds.Min.Y) =
          accToRGBA (accSum src K (2 * c + 1) (src.Bounds.Max.X - src.Bounds.Min.X)
            (src.Bounds.Max.Y - src.Bounds.Min.Y) x y) := by
  obtain ⟨K, hK, hS, _⟩ := buildKernel_odd m sigma c hc hk
  obtain ⟨out, hout, hR, hP⟩ :=
    convolve_ok src K (2 * c + 1) (drawSrc (NewRGBA src.Bounds) src) hS rfl
  refine ⟨K, out, hK, hS, ?_, hR, fun x y hx hx2 hy hy2 => ?_⟩
  · unfold applyGaussianBlur
    simp only [hK, hk]
    exact hout
  · have hin : (Point.mk (x + src.Bounds.Min.X) (y + src.Bounds.Min.Y)).In src.Bounds := by
      simp only [Point.In]; omega
    unfold RGBAImage.RGBAAt
    rw [hR, if_pos hin, hP, if_pos hin]
    simp only [add_sub_cancel_right]

/-- The accumulated taps are the sum of the specification. -/
theorem sum_tap_eq_blurSum (src : Image) (kernel : Kernel F) (k w h x y : Int)
    (ch : Color → Nat) (hk : 0 ≤ k) :
    (∑ ky ∈ Finset.Ico 0 k, ∑ kx ∈ Finset.Ico 0 k, tap src kernel k w h x y ch ky kx) =
      blurSum src kernel.cell k w h x y ch := by
  unfold blurSum
  rw [Finset.sum_filter, Finset.sum_product_right]
  apply Finset.sum_congr rfl
  intro ky _
  apply Finset.sum_congr rfl
  intro kx _
  unfold tap
  rw [Int.tdiv_eq_ediv hk (by norm_num)]

/-! ## The weights of the kernel -/

theorem sum_Ico_shift {M : Type} [AddCommMonoid M] (c : Int) (g : Int → M) :
    ∑ i ∈ Finset.Ico 0 (2 * c + 1), g (i - c) = ∑ y ∈ Finset.Icc (-c) c, g y := by
  apply Finset.sum_nbij' (fun i => i - c) (fun y => y + c)
  · intro i hi; simp only [Finset.mem_Ico, Finset.mem_Icc] at *; omega
  · intro i hi; simp only [Finset.mem_Ico, Finset.mem_Icc] at *; omega
  · intro i _; omega
  · intro i _; omega
  · intro i _; rfl

/-- With a positive exponential and a positive `Sqrt(2*Pi)`, the raw weights of a positive
`sigma` are positive. -/
theorem rawWeight_pos (m : MathOps F) (hexp : ∀ t, 0 < m.Exp t) (hsqrt : 0 < m.Sqrt (2 * m.Pi))
    (sigma : F) (hs : 0 < sigma) (x y : Int) : 0 < rawWeight m sigma x y := by
  unfold rawWeight gaussian
  exact div_pos (hexp _) (mul_pos hsqrt hs)

/-- The sum of the raw weights is positive. -/
theorem rawSum_pos (m : MathOps F) (hexp : ∀ t, 0 < m.Exp t) (hsqrt : 0 < m.Sqrt (2 * m.Pi))
    (sigma : F) (hs : 0 < sigma) (c : Int) (hc : 0 ≤ c) :
    0 < ∑ y ∈ Finset.Icc (-c) c, ∑ x ∈ Finset.Icc (-c) c, rawWeight m sigma x y := by
  have hne : (Finset.Icc (-c) c).Nonempty := ⟨0, by simp only [Finset.mem_Icc]; omega⟩
  apply Finset.sum_pos _ hne
  intro y _
  apply Finset.sum_pos _ hne
  intro x _
  exact rawWeight_pos m hexp hsqrt sigma hs x y

/-- The kernel of a positive `sigma` with odd kernel size: construction succeeds, the
entries are positive and sum to 1. -/
theorem buildKernel_normalized [FloorRing F] (m : MathOps F) (hexp : ∀ t, 0 < m.Exp t)
    (hsqrt : 0 < m.Sqrt (2 * m.Pi)) (sigma : F) (hs : 0 < sigma) (c : Int) (hc : 0 ≤ c)
    (hk : kernelSizeOf sigma = 2 * c + 1) :
    ∃ K, buildKernel m sigma = .ok K ∧ K.size = 2 * c + 1 ∧
      (∀ i j, 0 ≤ i → i < 2 * c + 1 → 0 ≤ j → j < 2 * c + 1 → 0 < K.cell i j) ∧
      ∑ i ∈ Finset.Ico 0 (2 * c + 1), ∑ j ∈ Finset.Ico 0 (2 * c + 1), K.cell i j = 1 := by
  obtain ⟨K, hK, hS, hcell⟩ := buildKernel_odd m sigma c hc hk
  have hpos := rawSum_pos m hexp hsqrt sigma hs c hc
  refine ⟨K, hK, hS, fun i j hi hi2 hj hj2 => ?_, ?_⟩
  · rw [hcell i j hi hi2 hj hj2]
    exact div_pos (rawWeight_pos m hexp hsqrt sigma hs _ _) hpos
  · have e : ∑ i ∈ Finset.Ico 0 (2 * c + 1), ∑ j ∈ Finset.Ico 0 (2 * c + 1), K.cell i j =
        ∑ i ∈ Finset.Ico 0 (2 * c + 1), ∑ j ∈ Finset.Ico 0 (2 * c + 1),
          rawWeight m sigma (j - c) (i - c) /
            ∑ y ∈ Finset.Icc (-c) c, ∑ x ∈ Finset.Icc (-c) c, rawWeight m sigma x y := by
      apply Finset.sum_congr rfl
      intro i hi
      apply Finset.sum_congr rfl
      intro j hj
      rw [Finset.mem_Ico] at hi hj
      exact hcell i j hi.1 hi.2 hj.1 hj.2
    rw [e]
    simp only [← Finset.sum_div]
    rw [sum_Ico_shift c (fun y => ∑ j ∈ Finset.Ico 0 (2 * c + 1), rawWeight m sigma (j - c) y)]
    have e2 : ∀ y, ∑ j ∈ Finset.Ico 0 (2 * c + 1), rawWeight m sigma (j - c) y =
        ∑ x ∈ Finset.Icc (-c) c, rawWeight m sigma x y :=
      fun y => sum_Ico_shift c (fun x => rawWeight m sigma x y)
    simp only [e2]
    exact div_self (ne_of_gt hpos)

/-- Every kernel size is negative, even or odd. -/
theorem kernelSize_cases (k : Int) :
    k < 0 ∨ (∃ c, 0 ≤ c ∧ k = 2 * c) ∨ (∃ c, 0 ≤ c ∧ k = 2 * c + 1) := by
  by_cases h : k < 0
  · exact Or.inl h
  · by_cases h2 : k % 2 = 0
    · exact Or.inr (Or.inl ⟨k / 2, by omega, by omega⟩)
    · exact Or.inr (Or.inr ⟨k / 2, by omega, by omega⟩)

/-- Kernel construction succeeds only for an odd kernel size. -/
theorem buildKernel_ok_odd [FloorRing F] (m : MathOps F) (sigma : F) (K : Kernel F)
    (h : buildKernel m sigma = .ok K) : ∃ c, 0 ≤ c ∧ kernelSizeOf sigma = 2 * c + 1 := by
  rcases kernelSize_cases (kernelSizeOf sigma) with h1 | ⟨c, hc, h2⟩ | h3
  · rw [buildKernel_neg m sigma h1] at h
    exact absurd h (by simp)
  · rw [buildKernel_even m sigma c hc h2] at h
    exact absurd h (by simp)
  · exact h3

/-- When `applyGaussianBlur` returns, the kernel size is odd. -/
theorem applyGaussianBlur_ok_odd [FloorRing F] (m : MathOps F) (src : Image) (sigma : F)
    (out : RGBAImage) (h : applyGaussianBlur m src sigma = .ok out) :
    ∃ c, 0 ≤ c ∧ kernelSizeOf sigma = 2 * c + 1 := by
  rcases kernelSize_cases (kernelSizeOf sigma) with h1 | ⟨c, hc, h2⟩ | h3
  · unfold applyGaussianBlur at h
    simp only [buildKernel_neg m sigma h1] at h
    exact absurd h (by simp)
  · unfold applyGaussianBlur at h
    simp only [buildKernel_even m sigma c hc h2] at h
    exact absurd h (by simp)
  · exact h3

/-- The exponential and `Sqrt(2*Pi)` of package `math` are positive over the reals. -/
theorem realMath_pos : (∀ t, 0 < realMath.Exp t) ∧ 0 < realMath.Sqrt (2 * realMath.Pi) :=
  ⟨fun t => Real.exp_pos t, Real.sqrt_pos.2 (by
    have := Real.pi_pos
    show 0 < 2 * Real.pi
    linarith)⟩

/-- The conversion `uint8(t)` of a float `0 ≤ t < 256` is its integer part. -/
theorem uint8OfFloat_of_range [FloorRing F] (t : F) (h0 : 0 ≤ t) (h1 : t < 256) :
    (uint8OfFloat t : Int) = ⌊t⌋ := by
  unfold uint8OfFloat truncToInt
  rw [if_pos h0]
  have hf0 : 0 ≤ ⌊t⌋ := Int.floor_nonneg.2 h0
  have hf1 : ⌊t⌋ < 256 := Int.floor_lt.2 (by simpa using h1)
  omega

/-- The raw weight over the reals, in terms of `gaussian`. -/
theorem rawWeight_real (sigma : ℝ) (x y : Int) :
    rawWeight realMath sigma x y =
      gaussian realMath (Real.sqrt ((x : ℝ) ^ 2 + (y : ℝ) ^ 2)) sigma := by
  unfold rawWeight
  have e : (((x * x + y * y : Int)) : ℝ) = (x : ℝ) ^ 2 + (y : ℝ) ^ 2 := by
    push_cast; ring
  rw [e]
  rfl

/-! ## Uniform images -/

/-- On a source that is constant on `[0,w) x [0,h)` the accumulated taps are the constant
times the covered kernel weight. -/
theorem sum_tap_uniform (src : Image) (kernel : Kernel F) (k w h x y : Int)
    (ch : Color → Nat) (n : Nat)
    (hu : ∀ sx sy, 0 ≤ sx → sx < w → 0 ≤ sy → sy < h → ch (src.At sx sy) = n) :
    (∑ ky ∈ Finset.Ico 0 k, ∑ kx ∈ Finset.Ico 0 k, tap src kernel k w h x y ch ky kx) =
      (n : F) * coverage kernel k w h x y := by
  unfold coverage
  rw [Finset.mul_sum]
  apply Finset.sum_congr rfl
  intro ky _
  rw [Finset.mul_sum]
  apply Finset.sum_congr rfl
  intro kx _
  unfold tap
  by_cases hc : x + kx - Int.tdiv k 2 ≥ 0 ∧ x + kx - Int.tdiv k 2 < w ∧
      y + ky - Int.tdiv k 2 ≥ 0 ∧ y + ky - Int.tdiv k 2 < h
  · rw [if_pos hc, if_pos hc, hu _ _ hc.1 hc.2.1 hc.2.2.1 hc.2.2.2]
  · rw [if_neg hc, if_neg hc, mul_zero]

/-- All taps of an interior pixel pass the test: the covered weight is the whole kernel. -/
theorem coverage_interior (kernel : Kernel F) (c w h x y : Int) (hc : 0 ≤ c)
    (hx : c ≤ x) (hx2 : x < w - c) (hy : c ≤ y) (hy2 : y < h - c) :
    coverage kernel (2 * c + 1) w h x y =
      ∑ ky ∈ Finset.Ico 0 (2 * c + 1), ∑ kx ∈ Finset.Ico 0 (2 * c + 1), kernel.cell ky kx := by
  unfold coverage
  rw [tdiv_two_odd c hc]
  apply Finset.sum_congr rfl
  intro ky hky
  apply Finset.sum_congr rfl
  intro kx hkx
  rw [Finset.mem_Ico] at hky hkx
  rw [if_pos (by omega)]

/-- The covered weight of a kernel with non-negative entries is non-negative. -/
theorem coverage_nonneg (kernel : Kernel F) (k w h x y : Int)
    (hpos : ∀ i j, 0 ≤ i → i < k → 0 ≤ j → j < k → 0 ≤ kernel.cell i j) :
    0 ≤ coverage kernel k w h x y := by
  unfold coverage
  apply Finset.sum_nonneg
  intro ky hky
  apply Finset.sum_nonneg
  intro kx hkx
  rw [Finset.mem_Ico] at hky hkx
  split_ifs
  · exact hpos ky kx hky.1 hky.2 hkx.1 hkx.2
  · exact le_refl _

/-- The covered weight of a kernel with non-negative entries is at most the whole kernel. -/
theorem coverage_le (kernel : Kernel F) (k w h x y : Int)
    (hpos : ∀ i j, 0 ≤ i → i < k → 0 ≤ j → j < k → 0 ≤ kernel.cell i j) :
    coverage kernel k w h x y ≤
      ∑ ky ∈ Finset.Ico 0 k, ∑ kx ∈ Finset.Ico 0 k, kernel.cell ky kx := by
  unfold coverage
  apply Finset.sum_le_sum
  intro ky hky
  apply Finset.sum_le_sum
  intro kx hkx
  rw [Finset.mem_Ico] at hky hkx
  split_ifs
  · exact le_refl _
  · exact hpos ky kx hky.1 hky.2 hkx.1 hkx.2

/-- When some tap fails the test and the entries are positive, the covered weight is less
than the whole kernel. -/
theorem coverage_lt (kernel : Kernel F) (k w h x y : Int)
    (hpos : ∀ i j, 0 ≤ i → i < k → 0 ≤ j → j < k → 0 < kernel.cell i j)
    (ky0 kx0 : Int) (hky0 : 0 ≤ ky0 ∧ ky0 < k) (hkx0 : 0 ≤ kx0 ∧ kx0 < k)
    (hout : ¬ (x + kx0 - Int.tdiv k 2 ≥ 0 ∧ x + kx0 - Int.tdiv k 2 < w ∧
      y + ky0 - Int.tdiv k 2 ≥ 0 ∧ y + ky0 - Int.tdiv k 2 < h)) :
    coverage kernel k w h x y <
      ∑ ky ∈ Finset.Ico 0 k, ∑ kx ∈ Finset.Ico 0 k, kernel.cell ky kx := by
  unfold coverage
  apply Finset.sum_lt_sum
  · intro ky hky
    apply Finset.sum_le_sum
    intro kx hkx
    rw [Finset.mem_Ico] at hky hkx
    split_ifs
    · exact le_refl _
    · exact le_of_lt (hpos ky kx hky.1 hky.2 hkx.1 hkx.2)
  · refine ⟨ky0, Finset.mem_Ico.2 hky0, ?_⟩
    apply Finset.sum_lt_sum
    · intro kx hkx
      rw [Finset.mem_Ico] at hkx
      split_ifs
      · exact le_refl _
      · exact le_of_lt (hpos ky0 kx hky0.1 hky0.2 hkx.1 hkx.2)
    · refine ⟨kx0, Finset.mem_Ico.2 hkx0, ?_⟩
      rw [if_neg hout]
      exact hpos ky0 kx0 hky0.1 hky0.2 hkx0.1 hkx0.2

/-- A pixel with a tap outside `[0,w) x [0,h)` has such a tap in the kernel. -/
theorem border_tap (c w h x y : Int) (hc : 0 ≤ c)
    (hb : ¬ (c ≤ x ∧ x < w - c ∧ c ≤ y ∧ y < h - c)) :
    ∃ ky0 kx0 : Int, (0 ≤ ky0 ∧ ky0 < 2 * c + 1) ∧ (0 ≤ kx0 ∧ kx0 < 2 * c + 1) ∧
      ¬ (x + kx0 - Int.tdiv (2 * c + 1) 2 ≥ 0 ∧ x + kx0 - Int.tdiv (2 * c + 1) 2 < w ∧
        y + ky0 - Int.tdiv (2 * c + 1) 2 ≥ 0 ∧ y + ky0 - Int.tdiv (2 * c + 1) 2 < h) := by
  rw [tdiv_two_odd c hc]
  by_cases h1 : c ≤ x
  · by_cases h2 : x < w - c
    · by_cases h3 : c ≤ y
      · exact ⟨2 * c, 0, by omega, by omega, by omega⟩
      · exact ⟨0, 0, by omega, by omega, by omega⟩
    · exact ⟨0, 2 * c, by omega, by omega, by omega⟩
  · exact ⟨0, 0, by omega, by omega, by omega⟩

/-- The output channel for the 8-bit value `v` attenuated by the covered weight `W`. -/
theorem uint8OfFloat_attenuated [FloorRing F] (v : Nat) (hv : v < 256) (W : F) (h0 : 0 ≤ W)
    (h1 : W ≤ 1) :
    uint8OfFloat (((257 * v : Nat) : F) * W / 0x101) ≤ v ∧
    (W = 1 → uint8OfFloat (((257 * v : Nat) : F) * W / 0x101) = v) ∧
    (W < 1 → 0 < v → uint8OfFloat (((257 * v : Nat) : F) * W / 0x101) < v) := by
  have e : ((257 * v : Nat) : F) * W / 0x101 = (v : F) * W := by
    push_cast
    field_simp
    ring
  rw [e]
  have hv0 : (0 : F) ≤ (v : F) := Nat.cast_nonneg v
  have ht0 : 0 ≤ (v : F) * W := mul_nonneg hv0 h0
  have htv : (v : F) * W ≤ (v : F) := by
    calc (v : F) * W ≤ (v : F) * 1 := mul_le_mul_of_nonneg_left h1 hv0
      _ = (v : F) := mul_one _
  have hv256 : (v : F) < 256 := by exact_mod_cast hv
  have hr := uint8OfFloat_of_range ((v : F) * W) ht0 (lt_of_le_of_lt htv hv256)
  have hle : ⌊(v : F) * W⌋ ≤ (v : Int) := by
    have := Int.floor_le_floor htv
    rwa [Int.floor_natCast] at this
  refine ⟨by omega, fun hW => ?_, fun hW hvpos => ?_⟩
  · rw [hW, mul_one] at hr
    rw [hW, mul_one]
    rw [Int.floor_natCast] at hr
    exact_mod_cast hr
  · have hlt : (v : F) * W < (v : F) := by
      have hvp : (0 : F) < (v : F) := by exact_mod_cast hvpos
      calc (v : F) * W < (v : F) * 1 := mul_lt_mul_of_pos_left hW hvp
        _ = (v : F) := mul_one _
    have : ⌊(v : F) * W⌋ < (v : Int) := Int.floor_lt.2 (by exact_mod_cast hlt)
    omega

/-- The blur of an image that is the 8-bit colour `col` on `[0,w) x [0,h)`, for a positive
`sigma` with odd kernel size `2c+1`: every output channel is the conversion of the source
sample times a covered weight `W` with `0 ≤ W ≤ 1`, where `W = 1` at interior pixels and
`W < 1` at border pixels. -/
theorem blur_uniform [FloorRing F] (m : MathOps F) (hexp : ∀ t, 0 < m.Exp t)
    (hsqrt : 0 < m.Sqrt (2 * m.Pi)) (src : Image) (col : RGBA) (hR : col.R < 256)
    (hG : col.G < 256) (hB : col.B < 256) (hA : col.A < 256) (sigma : F) (hs : 0 < sigma)
    (c : Int) (hc : 0 ≤ c) (hk : kernelSizeOf sigma = 2 * c + 1)
    (hu : ∀ sx sy, 0 ≤ sx → sx < src.Bounds.Max.X - src.Bounds.Min.X → 0 ≤ sy →
      sy < src.Bounds.Max.Y - src.Bounds.Min.Y → src.At sx sy = col.RGBA) :
    ∃ out, applyGaussianBlur m src sigma = .ok out ∧
      ∀ x y, 0 ≤ x → x < src.Bounds.Max.X - src.Bounds.Min.X →
        0 ≤ y → y < src.Bounds.Max.Y - src.Bounds.Min.Y →
        ∃ W : F, 0 ≤ W ∧ W ≤ 1 ∧
          ((c ≤ x ∧ x < src.Bounds.Max.X - src.Bounds.Min.X - c ∧
            c ≤ y ∧ y < src.Bounds.Max.Y - src.Bounds.Min.Y - c) → W = 1) ∧
          (¬ (c ≤ x ∧ x < src.Bounds.Max.X - src.Bounds.Min.X - c ∧
            c ≤ y ∧ y < src.Bounds.Max.Y - src.Bounds.Min.Y - c) → W < 1) ∧
          out.RGBAAt (x + src.Bounds.Min.X) (y + src.Bounds.Min.Y) =
            ⟨uint8OfFloat (((257 * col.R : Nat) : F) * W / 0x101),
              uint8OfFloat (((257 * col.G : Nat) : F) * W / 0x101),
              uint8OfFloat (((257 * col.B : Nat) : F) * W / 0x101),
              uint8OfFloat (((257 * col.A : Nat) : F) * W / 0x101)⟩ := by
  obtain ⟨K, hK, hS, hpos, hsum⟩ := buildKernel_normalized m hexp hsqrt sigma hs c hc hk
  obtain ⟨K1, out, hK1, _, hout, _, hP⟩ := applyGaussianBlur_odd m src sigma c hc hk
  have e : K1 = K := by
    rw [hK1] at hK
    exact Except.ok.inj hK
  subst e
  have hcol := RGBA_RGBA_eq col hR hG hB hA
  refine ⟨out, hout, fun x y hx hx2 hy hy2 => ?_⟩
  refine ⟨coverage K1 (2 * c + 1) (src.Bounds.Max.X - src.Bounds.Min.X)
    (src.Bounds.Max.Y - src.Bounds.Min.Y) x y, ?_, ?_, ?_, ?_, ?_⟩
  · exact coverage_nonneg K1 _ _ _ _ _
      (fun i j hi hi2 hj hj2 => le_of_lt (hpos i j hi hi2 hj hj2))
  · rw [← hsum]
    exact coverage_le K1 _ _ _ _ _
      (fun i j hi hi2 hj hj2 => le_of_lt (hpos i j hi hi2 hj hj2))
  · intro hi
    rw [coverage_interior K1 c _ _ x y hc hi.1 hi.2.1 hi.2.2.1 hi.2.2.2, hsum]
  · intro hb
    obtain ⟨ky0, kx0, hky0, hkx0, hfail⟩ := border_tap c _ _ x y hc hb
    rw [← hsum]
    exact coverage_lt K1 _ _ _ _ _ hpos ky0 kx0 hky0 hkx0 hfail
  · rw [hP x y hx hx2 hy hy2]
    unfold accToRGBA accSum
    simp only
    rw [sum_tap_uniform src K1 _ _ _ x y Color.r (257 * col.R)
        (fun sx sy h1 h2 h3 h4 => by rw [hu sx sy h1 h2 h3 h4, hcol]),
      sum_tap_uniform src K1 _ _ _ x y Color.g (257 * col.G)
        (fun sx sy h1 h2 h3 h4 => by rw [hu sx sy h1 h2 h3 h4, hcol]),
      sum_tap_uniform src K1 _ _ _ x y Color.b (257 * col.B)
        (fun sx sy h1 h2 h3 h4 => by rw [hu sx sy h1 h2 h3 h4, hcol]),
      sum_tap_uniform src K1 _ _ _ x y Color.a (257 * col.A)
        (fun sx sy h1 h2 h3 h4 => by rw [hu sx sy h1 h2 h3 h4, hcol])]

end KernelLemmas

/-! ## Lemmas on the luminance -/

/-- On 16-bit samples nothing wraps in `rgbToGray`. -/
theorem rgbToGray_eq_div (c : Color) (hr : c.r ≤ 65535) (hg : c.g ≤ 65535)
    (hb : c.b ≤ 65535) : rgbToGray c = (c.r + c.g + c.b) / 768 := by
  unfold rgbToGray uint8
  simp only [Nat.shiftRight_eq_div_pow]
  norm_num
  omega

/-! ## Lemmas on checked reads -/

section CheckedLemmas

variable {F : Type} [LinearOrderedField F]

/-- The checked source reads of the inner loops never fail: the loops with checked reads are
the loops of the program. -/
theorem accumulateChecked_eq (src : Image) (kernel : Kernel F) (kernelSize w h x y : Int) :
    accumulateChecked src kernel kernelSize w h x y =
      accumulate src kernel kernelSize w h x y := by
  unfold accumulateChecked accumulate
  congr 1
  funext acc ky
  congr 1
  funext acc1 kx
  dsimp only
  by_cases hc : x + kx - Int.tdiv kernelSize 2 ≥ 0 ∧ x + kx - Int.tdiv kernelSize 2 < w ∧
      y + ky - Int.tdiv kernelSize 2 ≥ 0 ∧ y + ky - Int.tdiv kernelSize 2 < h
  · rw [if_pos hc, if_pos hc]
    have hr : src.AtChecked w h (x + kx - Int.tdiv kernelSize 2)
        (y + ky - Int.tdiv kernelSize 2) =
        .ok (src.At (x + kx - Int.tdiv kernelSize 2) (y + ky - Int.tdiv kernelSize 2)) := by
      unfold Image.AtChecked
      rw [if_pos hc]
    rw [hr]
  · rw [if_neg hc, if_neg hc]

theorem applyGaussianBlurChecked_eq [FloorRing F] (m : MathOps F) (src : Image) (sigma : F) :
    applyGaussianBlurChecked m src sigma = applyGaussianBlur m src sigma := by
  unfold applyGaussianBlurChecked applyGaussianBlur convolveChecked convolve
  simp only [accumulateChecked_eq]

/-- The conversion of a zero accumulator. -/
theorem uint8OfFloat_zero [FloorRing F] : uint8OfFloat (0 : F) = 0 := by
  unfold uint8OfFloat truncToInt
  simp

end CheckedLemmas

/-! ## Lemmas on all-zero images -/

section ZeroLemmas

variable {F : Type} [LinearOrderedField F] [FloorRing F]

/-- The blur of a source that is all zero on `[0,w) x [0,h)`, for an odd kernel size: every
pixel of the result is all zero. -/
theorem blur_zero (m : MathOps F) (src : Image) (sigma : F) (c : Int) (hc : 0 ≤ c)
    (hk : kernelSizeOf sigma = 2 * c + 1)
    (hz : ∀ sx sy, 0 ≤ sx → sx < src.Bounds.Max.X - src.Bounds.Min.X → 0 ≤ sy →
      sy < src.Bounds.Max.Y - src.Bounds.Min.Y → src.At sx sy = ⟨0, 0, 0, 0⟩) :
    ∃ out, applyGaussianBlur m src sigma = .ok out ∧ out.Rect = src.Bounds ∧
      ∀ x y, out.RGBAAt x y = ⟨0, 0, 0, 0⟩ := by
  obtain ⟨K, out, _, _, hout, hR, hP⟩ := applyGaussianBlur_odd m src sigma c hc hk
  refine ⟨out, hout, hR, fun x y => ?_⟩
  by_cases hin : (Point.mk x y).In src.Bounds
  · obtain ⟨h1, h2, h3, h4⟩ := hin
    simp only at h1 h2 h3 h4
    have e := hP (x - src.Bounds.Min.X) (y - src.Bounds.Min.Y) (by omega) (by omega)
      (by omega) (by omega)
    simp only [sub_add_cancel] at e
    rw [e]
    unfold accToRGBA accSum
    simp only
    rw [sum_tap_uniform src K _ _ _ _ _ Color.r 0
        (fun sx sy a1 a2 a3 a4 => by rw [hz sx sy a1 a2 a3 a4]),
      sum_tap_uniform src K _ _ _ _ _ Color.g 0
        (fun sx sy a1 a2 a3 a4 => by rw [hz sx sy a1 a2 a3 a4]),
      sum_tap_uniform src K _ _ _ _ _ Color.b 0
        (fun sx sy a1 a2 a3 a4 => by rw [hz sx sy a1 a2 a3 a4]),
      sum_tap_uniform src K _ _ _ _ _ Color.a 0
        (fun sx sy a1 a2 a3 a4 => by rw [hz sx sy a1 a2 a3 a4])]
    simp only [Nat.cast_zero, zero_mul, zero_div, uint8OfFloat_zero]
  · unfold RGBAImage.RGBAAt
    rw [hR, if_neg hin]

end ZeroLemmas

/-! ## Lemmas on the kernel over the reals -/

/-- The raw weight depends on its offsets through `x*x + y*y` only. -/
theorem rawWeight_congr {F : Type} [LinearOrderedField F] (m : MathOps F) (sigma : F)
    (x y x1 y1 : Int) (h : x * x + y * y = x1 * x1 + y1 * y1) :
    rawWeight m sigma x y = rawWeight m sigma x1 y1 := by
  unfold rawWeight
  rw [h]

/-- The raw weight over the reals as an exponential of the squared distance. -/
theorem rawWeight_real_exp (sigma : ℝ) (x y : Int) :
    rawWeight realMath sigma x y =
      Real.exp (-((x : ℝ) ^ 2 + (y : ℝ) ^ 2) / (2 * sigma * sigma)) /
        (Real.sqrt (2 * Real.pi) * sigma) := by
  rw [rawWeight_real]
  unfold gaussian realMath
  simp only
  rw [Real.mul_self_sqrt (by positivity)]

/-- The raw weight over the reals is a product of a factor for each offset. -/
theorem rawWeight_real_mul (sigma : ℝ) (x y : Int) :
    rawWeight realMath sigma x y =
      Real.exp (-((x : ℝ) ^ 2) / (2 * sigma * sigma)) *
        Real.exp (-((y : ℝ) ^ 2) / (2 * sigma * sigma)) /
        (Real.sqrt (2 * Real.pi) * sigma) := by
  rw [rawWeight_real_exp, ← Real.exp_add]
  congr 2
  ring

/-- Away from the centre the raw weight is smaller than at the centre. -/
theorem rawWeight_real_lt_centre (sigma : ℝ) (hs : 0 < sigma) (x y : Int)
    (hne : ¬ (x = 0 ∧ y = 0)) :
    rawWeight realMath sigma x y < rawWeight realMath sigma 0 0 := by
  rw [rawWeight_real_exp, rawWeight_real_exp]
  have hA : 0 < Real.sqrt (2 * Real.pi) * sigma := mul_pos realMath_pos.2 hs
  apply div_lt_div_of_pos_right _ hA
  rw [Real.exp_lt_exp]
  have hpos : (0 : ℝ) < (x : ℝ) ^ 2 + (y : ℝ) ^ 2 := by
    have hi : 0 < x ^ 2 + y ^ 2 := by
      by_cases hx : x = 0
      · have hy : y ≠ 0 := fun h => hne ⟨hx, h⟩
        have := pow_pos (abs_pos.2 hy) 2
        rw [sq_abs] at this
        nlinarith [sq_nonneg x]
      · have := pow_pos (abs_pos.2 hx) 2
        rw [sq_abs] at this
        nlinarith [sq_nonneg y]
    exact_mod_cast hi
  have hd : (0 : ℝ) < 2 * sigma * sigma := by positivity
  have h1 : -((x : ℝ) ^ 2 + (y : ℝ) ^ 2) / (2 * sigma * sigma) < 0 :=
    div_neg_of_neg_of_pos (by linarith) hd
  simpa using h1

/-- The centre entry of the kernel over the reals. -/
theorem kernel_centre_real (sigma : ℝ) (hs : 0 < sigma) (c : Int) (hc : 0 ≤ c)
    (hk : kernelSizeOf sigma = 2 * c + 1) :
    ∃ K, buildKernel realMath sigma = .ok K ∧
      K.cell c c = 1 / (∑ d ∈ Finset.Icc (-c) c,
        Real.exp (-((d : ℝ) ^ 2) / (2 * sigma * sigma))) ^ 2 := by
  obtain ⟨K, hK, _, hcell⟩ := buildKernel_odd realMath sigma c hc hk
  refine ⟨K, hK, ?_⟩
  rw [hcell c c hc (by omega) hc (by omega)]
  have hA : 0 < Real.sqrt (2 * Real.pi) * sigma := mul_pos realMath_pos.2 hs
  have hE : 0 < ∑ d ∈ Finset.Icc (-c) c,
      Real.exp (-((d : ℝ) ^ 2) / (2 * sigma * sigma)) :=
    Finset.sum_pos (fun d _ => Real.exp_pos _) ⟨0, by simp only [Finset.mem_Icc]; omega⟩
  have hsum : ∑ y ∈ Finset.Icc (-c) c, ∑ x ∈ Finset.Icc (-c) c, rawWeight realMath sigma x y =
      (∑ d ∈ Finset.Icc (-c) c, Real.exp (-((d : ℝ) ^ 2) / (2 * sigma * sigma))) ^ 2 /
        (Real.sqrt (2 * Real.pi) * sigma) := by
    simp only [rawWeight_real_mul]
    rw [sq, Finset.sum_mul_sum, Finset.sum_div]
    apply Finset.sum_congr rfl
    intro y _
    rw [Finset.sum_div]
    apply Finset.sum_congr rfl
    intro x _
    ring
  rw [hsum, sub_self, rawWeight_real_mul]
  simp only [Int.cast_zero, ne_eq, OfNat.ofNat_ne_zero, not_false_eq_true, zero_pow, neg_zero,
    zero_div, Real.exp_zero, mul_one]
  field_simp

/-! ## Lemmas on a single pixel -/

/-- Bounds on `exp(-1/2)`. -/
theorem exp_neg_half_bounds : (0.606 : ℝ) < Real.exp (-1 / 2) ∧ Real.exp (-1 / 2) < 0.607 := by
  have h1 := Real.exp_one_gt_d9
  have h2 := Real.exp_one_lt_d9
  have hu : Real.exp (-1 / 2) * Real.exp (-1 / 2) = (Real.exp 1)⁻¹ := by
    rw [← Real.exp_add, ← Real.exp_neg]; norm_num
  have hpos : 0 < Real.exp (-1 / 2) := Real.exp_pos _
  have he : 0 < Real.exp 1 := Real.exp_pos _
  have h3 : (Real.exp 1)⁻¹ < 0.36788 := by
    rw [inv_lt_comm₀ he (by norm_num)]
    refine lt_trans ?_ h1
    norm_num
  have h4 : 0.36787 < (Real.exp 1)⁻¹ := by
    rw [lt_inv_comm₀ (by norm_num) he]
    refine lt_trans h2 ?_
    norm_num
  constructor
  · by_contra h
    push_neg at h
    nlinarith
  · by_contra h
    push_neg at h
    nlinarith

/-- The sum of `exp(-d^2/2)` over the offsets of the 7 by 7 kernel. -/
theorem sum_exp_seven :
    ∑ d ∈ Finset.Icc (-3 : Int) 3, Real.exp (-((d : ℝ) ^ 2) / 2) =
      1 + 2 * (Real.exp (-1 / 2) + Real.exp (-1 / 2) ^ 4 + Real.exp (-1 / 2) ^ 9) := by
  have e4 : Real.exp (-2) = Real.exp (-(1 / 2)) ^ 4 := by
    rw [← Real.exp_nat_mul]; norm_num
  have e9 : Real.exp (-(9 / 2)) = Real.exp (-(1 / 2)) ^ 9 := by
    rw [← Real.exp_nat_mul]; norm_num
  have hl : Finset.Icc (-3 : Int) 3 = {-3, -2, -1, 0, 1, 2, 3} := by decide
  rw [hl, Finset.sum_insert (by decide), Finset.sum_insert (by decide),
    Finset.sum_insert (by decide), Finset.sum_insert (by decide),
    Finset.sum_insert (by decide), Finset.sum_insert (by decide), Finset.sum_singleton]
  norm_num
  rw [e4, e9]
  ring

/-- The centre entry of the 7 by 7 kernel times 255 lies between 40 and 41. -/
theorem centre_seven_bounds :
    (40 : ℝ) ≤ 1 / (∑ d ∈ Finset.Icc (-3 : Int) 3, Real.exp (-((d : ℝ) ^ 2) / 2)) ^ 2 * 255 ∧
    1 / (∑ d ∈ Finset.Icc (-3 : Int) 3, Real.exp (-((d : ℝ) ^ 2) / 2)) ^ 2 * 255 < 41 := by
  rw [sum_exp_seven]
  obtain ⟨hl, hu⟩ := exp_neg_half_bounds
  have hpos : (0 : ℝ) ≤ 0.606 := by norm_num
  have h4l : (0.606 : ℝ) ^ 4 < Real.exp (-1 / 2) ^ 4 := pow_lt_pow_left₀ hl hpos (by norm_num)
  have h4u : Real.exp (-1 / 2) ^ 4 < (0.607 : ℝ) ^ 4 :=
    pow_lt_pow_left₀ hu (le_of_lt (Real.exp_pos _)) (by norm_num)
  have h9l : (0.606 : ℝ) ^ 9 < Real.exp (-1 / 2) ^ 9 := pow_lt_pow_left₀ hl hpos (by norm_num)
  have h9u : Real.exp (-1 / 2) ^ 9 < (0.607 : ℝ) ^ 9 :=
    pow_lt_pow_left₀ hu (le_of_lt (Real.exp_pos _)) (by norm_num)
  have hEl : (2.5037 : ℝ) <
      1 + 2 * (Real.exp (-1 / 2) + Real.exp (-1 / 2) ^ 4 + Real.exp (-1 / 2) ^ 9) := by
    norm_num at h4l h9l ⊢
    linarith
  have hEu : 1 + 2 * (Real.exp (-1 / 2) + Real.exp (-1 / 2) ^ 4 + Real.exp (-1 / 2) ^ 9) <
      (2.508 : ℝ) := by
    norm_num at h4u h9u ⊢
    linarith
  have hE0 : (0 : ℝ) <
      1 + 2 * (Real.exp (-1 / 2) + Real.exp (-1 / 2) ^ 4 + Real.exp (-1 / 2) ^ 9) := by
    linarith
  have hsq : (0 : ℝ) <
      (1 + 2 * (Real.exp (-1 / 2) + Real.exp (-1 / 2) ^ 4 + Real.exp (-1 / 2) ^ 9)) ^ 2 := by
    positivity
  constructor
  · rw [one_div, inv_mul_eq_div, le_div_iff₀ hsq]
    nlinarith
  · rw [one_div, inv_mul_eq_div, div_lt_iff₀ hsq]
    nlinarith

/-- On a 1x1 grid only the centre tap passes the test: the covered weight is the centre
entry of the kernel. -/
theorem coverage_single {F : Type} [LinearOrderedField F] (kernel : Kernel F) (c : Int)
    (hc : 0 ≤ c) : coverage kernel (2 * c + 1) 1 1 0 0 = kernel.cell c c := by
  unfold coverage
  rw [tdiv_two_odd c hc]
  rw [Finset.sum_eq_single c]
  · rw [Finset.sum_eq_single c]
    · rw [if_pos (by omega)]
    · intro kx _ hne
      rw [if_neg (by omega)]
    · intro h
      exact absurd (Finset.mem_Ico.2 ⟨hc, by omega⟩) h
  · intro ky _ hne
    apply Finset.sum_eq_zero
    intro kx _
    rw [if_neg (by omega)]
  · intro h
    exact absurd (Finset.mem_Ico.2 ⟨hc, by omega⟩) h

/-- The blur of a 1x1 grid holding the 8-bit colour `col`, for an odd kernel size `2c+1`:
every channel is the conversion of the source sample times the centre entry. -/
theorem blur_single_pixel {F : Type} [LinearOrderedField F] [FloorRing F] (m : MathOps F)
    (src : Image) (col : RGBA) (hR : col.R < 256) (hG : col.G < 256) (hB : col.B < 256)
    (hA : col.A < 256) (sigma : F) (c : Int) (hc : 0 ≤ c)
    (hk : kernelSizeOf sigma = 2 * c + 1)
    (hw : src.Bounds.Max.X - src.Bounds.Min.X = 1)
    (hh : src.Bounds.Max.Y - src.Bounds.Min.Y = 1) (hpix : src.At 0 0 = col.RGBA) :
    ∃ K out, buildKernel m sigma = .ok K ∧ applyGaussianBlur m src sigma = .ok out ∧
      out.RGBAAt src.Bounds.Min.X src.Bounds.Min.Y =
        ⟨uint8OfFloat (((257 * col.R : Nat) : F) * K.cell c c / 0x101),
          uint8OfFloat (((257 * col.G : Nat) : F) * K.cell c c / 0x101),
          uint8OfFloat (((257 * col.B : Nat) : F) * K.cell c c / 0x101),
          uint8OfFloat (((257 * col.A : Nat) : F) * K.cell c c / 0x101)⟩ := by
  obtain ⟨K, out, hK, _, hout, _, hP⟩ := applyGaussianBlur_odd m src sigma c hc hk
  have hcol := RGBA_RGBA_eq col hR hG hB hA
  have hu : ∀ sx sy : Int, 0 ≤ sx → sx < 1 → 0 ≤ sy → sy < 1 → src.At sx sy = col.RGBA := by
    intro sx sy h1 h2 h3 h4
    have e1 : sx = 0 := by omega
    have e2 : sy = 0 := by omega
    rw [e1, e2, hpix]
  refine ⟨K, out, hK, hout, ?_⟩
  have e := hP 0 0 (le_refl _) (by omega) (le_refl _) (by omega)
  rw [zero_add, zero_add, hw, hh] at e
  rw [e]
  unfold accToRGBA accSum
  simp only
  rw [sum_tap_uniform src K _ _ _ 0 0 Color.r (257 * col.R)
      (fun sx sy h1 h2 h3 h4 => by rw [hu sx sy h1 h2 h3 h4, hcol]),
    sum_tap_uniform src K _ _ _ 0 0 Color.g (257 * col.G)
      (fun sx sy h1 h2 h3 h4 => by rw [hu sx sy h1 h2 h3 h4, hcol]),
    sum_tap_uniform src K _ _ _ 0 0 Color.b (257 * col.B)
      (fun sx sy h1 h2 h3 h4 => by rw [hu sx sy h1 h2 h3 h4, hcol]),
    sum_tap_uniform src K _ _ _ 0 0 Color.a (257 * col.A)
      (fun sx sy h1 h2 h3 h4 => by rw [hu sx sy h1 h2 h3 h4, hcol]),
    coverage_single K c hc]

/-- The conversion of an 8-bit sample times a weight `0 ≤ W < 1` is the integer part of the
8-bit value times the weight. -/
theorem uint8OfFloat_weighted {F : Type} [LinearOrderedField F] [FloorRing F] (v : Nat)
    (hv : v < 256) (W : F) (h0 : 0 ≤ W) (h1 : W ≤ 1) :
    (uint8OfFloat (((257 * v : Nat) : F) * W / 0x101) : Int) = ⌊W * (v : F)⌋ := by
  have e : ((257 * v : Nat) : F) * W / 0x101 = W * (v : F) := by
    push_cast
    field_simp
    ring
  rw [e]
  have hv0 : (0 : F) ≤ (v : F) := Nat.cast_nonneg v
  have hv256 : (v : F) < 256 := by exact_mod_cast hv
  have ht : W * (v : F) ≤ (v : F) := by
    calc W * (v : F) ≤ 1 * (v : F) := mul_le_mul_of_nonneg_right h1 hv0
      _ = (v : F) := one_mul _
  exact uint8OfFloat_of_range _ (mul_nonneg h0 hv0) (lt_of_le_of_lt ht hv256)

/-- The blur with `sigma = 1` of a 1x1 grid holding the 8-bit colour `col`, over the reals:
every channel is the integer part of the centre entry `kernel[3][3]` times the 8-bit value,
and that entry times 255 has integer part 40. -/
theorem blur_single_pixel_real (src : Image) (col : RGBA) (hR : col.R < 256)
    (hG : col.G < 256) (hB : col.B < 256) (hA : col.A < 256)
    (hw : src.Bounds.Max.X - src.Bounds.Min.X = 1)
    (hh : src.Bounds.Max.Y - src.Bounds.Min.Y = 1) (hpix : src.At 0 0 = col.RGBA) :
    ∃ K out, buildKernel realMath (1 : ℝ) = .ok K ∧
      applyGaussianBlur realMath src (1 : ℝ) = .ok out ∧
      K.cell 3 3 = 1 / (∑ d ∈ Finset.Icc (-3 : Int) 3, Real.exp (-((d : ℝ) ^ 2) / 2)) ^ 2 ∧
      ⌊K.cell 3 3 * 255⌋ = 40 ∧
      ((out.RGBAAt src.Bounds.Min.X src.Bounds.Min.Y).R : Int) = ⌊K.cell 3 3 * (col.R : ℝ)⌋ ∧
      ((out.RGBAAt src.Bounds.Min.X src.Bounds.Min.Y).G : Int) = ⌊K.cell 3 3 * (col.G : ℝ)⌋ ∧
      ((out.RGBAAt src.Bounds.Min.X src.Bounds.Min.Y).B : Int) = ⌊K.cell 3 3 * (col.B : ℝ)⌋ ∧
      ((out.RGBAAt src.Bounds.Min.X src.Bounds.Min.Y).A : Int) = ⌊K.cell 3 3 * (col.A : ℝ)⌋ := by
  have h7 : kernelSizeOf (1 : ℝ) = 2 * 3 + 1 := by rw [kernelSizeOf_one]; norm_num
  obtain ⟨K, out, hK, hout, hval⟩ := blur_single_pixel realMath src col hR hG hB hA (1 : ℝ) 3
    (by norm_num) h7 hw hh hpix
  obtain ⟨K1, hK1, hcentre⟩ := kernel_centre_real 1 (by norm_num) 3 (by norm_num) h7
  have e : K1 = K := by
    rw [hK1] at hK
    exact Except.ok.inj hK
  subst e
  have hc : K1.cell 3 3 =
      1 / (∑ d ∈ Finset.Icc (-3 : Int) 3, Real.exp (-((d : ℝ) ^ 2) / 2)) ^ 2 := by
    rw [hcentre]
    norm_num
  obtain ⟨hlo, hhi⟩ := centre_seven_bounds
  rw [← hc] at hlo hhi
  have hW0 : 0 ≤ K1.cell 3 3 := by linarith
  have hW1 : K1.cell 3 3 ≤ 1 := by linarith
  refine ⟨K1, out, hK1, hout, hc, ?_, ?_, ?_, ?_, ?_⟩
  · rw [Int.floor_eq_iff]
    constructor
    · push_cast; linarith
    · push_cast; linarith
  · rw [hval]; exact uint8OfFloat_weighted col.R hR _ hW0 hW1
  · rw [hval]; exact uint8OfFloat_weighted col.G hG _ hW0 hW1
  · rw [hval]; exact uint8OfFloat_weighted col.B hB _ hW0 hW1
  · rw [hval]; exact uint8OfFloat_weighted col.A hA _ hW0 hW1

/-- A `color.RGBA` value given by the integer values of its fields. -/
theorem rgba_eq_of_fields (p : RGBA) (r g b a : Nat) (hr : (p.R : Int) = r)
    (hg : (p.G : Int) = g) (hb : (p.B : Int) = b) (ha : (p.A : Int) = a) :
    p = ⟨r, g, b, a⟩ := by
  obtain ⟨R, G, B, A⟩ := p
  simp only at hr hg hb ha
  have h1 : R = r := by exact_mod_cast hr
  have h2 : G = g := by exact_mod_cast hg
  have h3 : B = b := by exact_mod_cast hb
  have h4 : A = a := by exact_mod_cast ha
  rw [h1, h2, h3, h4]

/-! ## Lemmas on the range of the accumulators -/

section RangeLemmas

variable {F : Type} [LinearOrderedField F]

/-- With non-negative kernel entries the accumulated taps are non-negative, and at most `n`
times the covered weight when every tap that passes the test reads a sample at most `n`. -/
theorem sum_tap_bounds (src : Image) (kernel : Kernel F) (k w h x y : Int)
    (ch : Color → Nat) (n : Nat)
    (hpos : ∀ i j, 0 ≤ i → i < k → 0 ≤ j → j < k → 0 ≤ kernel.cell i j)
    (hn : ∀ ky kx, 0 ≤ ky → ky < k → 0 ≤ kx → kx < k →
      (x + kx - Int.tdiv k 2 ≥ 0 ∧ x + kx - Int.tdiv k 2 < w ∧
        y + ky - Int.tdiv k 2 ≥ 0 ∧ y + ky - Int.tdiv k 2 < h) →
      ch (src.At (x + kx - Int.tdiv k 2) (y + ky - Int.tdiv k 2)) ≤ n) :
    0 ≤ (∑ ky ∈ Finset.Ico 0 k, ∑ kx ∈ Finset.Ico 0 k, tap src kernel k w h x y ch ky kx) ∧
    (∑ ky ∈ Finset.Ico 0 k, ∑ kx ∈ Finset.Ico 0 k, tap src kernel k w h x y ch ky kx) ≤
      (n : F) * coverage kernel k w h x y := by
  constructor
  · apply Finset.sum_nonneg
    intro ky hky
    apply Finset.sum_nonneg
    intro kx hkx
    rw [Finset.mem_Ico] at hky hkx
    unfold tap
    split_ifs
    · exact mul_nonneg (Nat.cast_nonneg _) (hpos ky kx hky.1 hky.2 hkx.1 hkx.2)
    · exact le_refl _
  · unfold coverage
    rw [Finset.mul_sum]
    apply Finset.sum_le_sum
    intro ky hky
    rw [Finset.mul_sum]
    apply Finset.sum_le_sum
    intro kx hkx
    rw [Finset.mem_Ico] at hky hkx
    unfold tap
    by_cases hg : x + kx - Int.tdiv k 2 ≥ 0 ∧ x + kx - Int.tdiv k 2 < w ∧
        y + ky - Int.tdiv k 2 ≥ 0 ∧ y + ky - Int.tdiv k 2 < h
    · rw [if_pos hg, if_pos hg]
      apply mul_le_mul_of_nonneg_right _ (hpos ky kx hky.1 hky.2 hkx.1 hkx.2)
      exact_mod_cast hn ky kx hky.1 hky.2 hkx.1 hkx.2 hg
    · rw [if_neg hg, if_neg hg, mul_zero]

/-- The conversion of accumulated taps bounded by `257 * M` with `M ≤ 255`: the accumulated
value divided by 257 lies in `[0, M]`, the conversion is its integer part and at most `M`. -/
theorem uint8OfFloat_bounded [FloorRing F] (S : F) (M : Nat) (hM : M ≤ 255) (h0 : 0 ≤ S)
    (h1 : S ≤ ((257 * M : Nat) : F)) :
    0 ≤ S / 0x101 ∧ S / 0x101 ≤ (M : F) ∧ (uint8OfFloat (S / 0x101) : Int) = ⌊S / 0x101⌋ ∧
      uint8OfFloat (S / 0x101) ≤ M := by
  have h257 : (0 : F) < 0x101 := by norm_num
  have hq0 : 0 ≤ S / 0x101 := div_nonneg h0 (le_of_lt h257)
  have hq1 : S / 0x101 ≤ (M : F) := by
    rw [div_le_iff₀ h257]
    push_cast at h1
    linarith
  have hM' : (M : F) < 256 := by
    have : M < 256 := by omega
    exact_mod_cast this
  have hr := uint8OfFloat_of_range (S / 0x101) hq0 (lt_of_le_of_lt hq1 hM')
  refine ⟨hq0, hq1, hr, ?_⟩
  have hfl : ⌊S / 0x101⌋ ≤ (M : Int) := by
    have := Int.floor_le_floor hq1
    rwa [Int.floor_natCast] at this
  omega

end RangeLemmas

/-- One channel of the blur of an 8-bit source, for a kernel with non-negative entries that
sum to 1: the conversion of the accumulated value is in range and does not exceed the 8-bit
values read by the taps that pass the test. -/
theorem channelInRange_of_kernel {F : Type} [LinearOrderedField F] [FloorRing F]
    (src : Image) (K : Kernel F) (c w h x y : Int) (hc : 0 ≤ c) (ch : Color → Nat)
    (hpos : ∀ i j, 0 ≤ i → i < 2 * c + 1 → 0 ≤ j → j < 2 * c + 1 → 0 ≤ K.cell i j)
    (hsum : ∑ i ∈ Finset.Ico 0 (2 * c + 1), ∑ j ∈ Finset.Ico 0 (2 * c + 1), K.cell i j = 1)
    (h8 : ∀ sx sy, 0 ≤ sx → sx < w → 0 ≤ sy → sy < h →
      ∃ v : Nat, v < 256 ∧ ch (src.At sx sy) = 257 * v)
    (hx : 0 ≤ x) (hx2 : x < w) (hy : 0 ≤ y) (hy2 : y < h) :
    ChannelInRange src K.cell (2 * c + 1) w h x y ch
      (uint8OfFloat (blurSum src K.cell (2 * c + 1) w h x y ch / 0x101)) := by
  have hk0 : (0 : Int) ≤ 2 * c + 1 := by omega
  have hdiv : (2 * c + 1) / 2 = c := by omega
  have htd : Int.tdiv (2 * c + 1) 2 = c := tdiv_two_odd c hc
  have hcov0 := coverage_nonneg K (2 * c + 1) w h x y hpos
  have hcov1 : coverage K (2 * c + 1) w h x y ≤ 1 := by
    rw [← hsum]; exact coverage_le K (2 * c + 1) w h x y hpos
  -- the accumulated value is bounded by every bound on the samples read
  have hbound : ∀ M : Nat, M ≤ 255 →
      (∀ ky kx : Int, 0 ≤ ky → ky < 2 * c + 1 → 0 ≤ kx → kx < 2 * c + 1 →
        (0 ≤ x + kx - c ∧ x + kx - c < w ∧ 0 ≤ y + ky - c ∧ y + ky - c < h) →
        ch (src.At (x + kx - c) (y + ky - c)) ≤ 257 * M) →
      0 ≤ blurSum src K.cell (2 * c + 1) w h x y ch ∧
      blurSum src K.cell (2 * c + 1) w h x y ch ≤ ((257 * M : Nat) : F) := by
    intro M _ hM
    rw [← sum_tap_eq_blurSum src K (2 * c + 1) w h x y ch hk0]
    obtain ⟨b0, b1⟩ := sum_tap_bounds src K (2 * c + 1) w h x y ch (257 * M) hpos
      (fun ky kx a1 a2 a3 a4 hg => by
        rw [htd] at hg ⊢
        exact hM ky kx a1 a2 a3 a4 ⟨hg.1, hg.2.1, hg.2.2.1, hg.2.2.2⟩)
    refine ⟨b0, le_trans b1 ?_⟩
    have hn : (0 : F) ≤ ((257 * M : Nat) : F) := Nat.cast_nonneg _
    calc ((257 * M : Nat) : F) * coverage K (2 * c + 1) w h x y
        ≤ ((257 * M : Nat) : F) * 1 := mul_le_mul_of_nonneg_left hcov1 hn
      _ = ((257 * M : Nat) : F) := mul_one _
  have h255 : ∀ ky kx : Int, 0 ≤ ky → ky < 2 * c + 1 → 0 ≤ kx → kx < 2 * c + 1 →
      (0 ≤ x + kx - c ∧ x + kx - c < w ∧ 0 ≤ y + ky - c ∧ y + ky - c < h) →
      ch (src.At (x + kx - c) (y + ky - c)) ≤ 257 * 255 := by
    intro ky kx _ _ _ _ hg
    obtain ⟨v, hv, e⟩ := h8 _ _ hg.1 hg.2.1 hg.2.2.1 hg.2.2.2
    rw [e]; omega
  obtain ⟨s0, s1⟩ := hbound 255 (le_refl _) h255
  obtain ⟨q0, q1, qfl, _⟩ := uint8OfFloat_bounded _ 255 (le_refl _) s0 s1
  have hall : ∀ M : Nat,
      (∀ ky kx : Int, 0 ≤ ky → ky < 2 * c + 1 → 0 ≤ kx → kx < 2 * c + 1 →
        (0 ≤ x + kx - c ∧ x + kx - c < w ∧ 0 ≤ y + ky - c ∧ y + ky - c < h) →
        ch (src.At (x + kx - c) (y + ky - c)) ≤ 257 * M) →
      uint8OfFloat (blurSum src K.cell (2 * c + 1) w h x y ch / 0x101) ≤ M := by
    intro M hM
    have hmin : ∀ ky kx : Int, 0 ≤ ky → ky < 2 * c + 1 → 0 ≤ kx → kx < 2 * c + 1 →
        (0 ≤ x + kx - c ∧ x + kx - c < w ∧ 0 ≤ y + ky - c ∧ y + ky - c < h) →
        ch (src.At (x + kx - c) (y + ky - c)) ≤ 257 * min M 255 := by
      intro ky kx a1 a2 a3 a4 hg
      have i1 := hM ky kx a1 a2 a3 a4 hg
      have i2 := h255 ky kx a1 a2 a3 a4 hg
      omega
    obtain ⟨t0, t1⟩ := hbound (min M 255) (by omega) hmin
    obtain ⟨_, _, _, r⟩ := uint8OfFloat_bounded _ (min M 255) (by omega) t0 t1
    omega
  unfold ChannelInRange
  rw [hdiv]
  refine ⟨q0, by exact_mod_cast q1, qfl, hall, ?_⟩
  by_contra hno
  push_neg at hno
  have hlt : ∀ ky kx : Int, 0 ≤ ky → ky < 2 * c + 1 → 0 ≤ kx → kx < 2 * c + 1 →
      (0 ≤ x + kx - c ∧ x + kx - c < w ∧ 0 ≤ y + ky - c ∧ y + ky - c < h) →
      ch (src.At (x + kx - c) (y + ky - c)) <
        257 * uint8OfFloat (blurSum src K.cell (2 * c + 1) w h x y ch / 0x101) :=
    fun ky kx a1 a2 a3 a4 hg => hno ky kx ⟨a1, a2⟩ ⟨a3, a4⟩ hg
  have hcentre := hlt c c hc (by omega) hc (by omega) (by omega)
  have hle := hall (uint8OfFloat (blurSum src K.cell (2 * c + 1) w h x y ch / 0x101) - 1)
    (fun ky kx a1 a2 a3 a4 hg => by
      have i1 := hlt ky kx a1 a2 a3 a4 hg
      obtain ⟨v, _, e⟩ := h8 _ _ hg.1 hg.2.1 hg.2.2.1 hg.2.2.2
      rw [e] at i1 ⊢
      omega)
  omega

/-! ## Lemmas on the output file name -/

/-- The result of the scan is a suffix of the path. -/
theorem extScan_suffix (l acc : List Char) : ∃ t, t ++ extScan l acc = l.reverse ++ acc := by
  induction l generalizing acc with
  | nil => exact ⟨acc, by simp [extScan]⟩
  | cons ch rest ih =>
    unfold extScan
    by_cases h1 : ch = '/'
    · rw [if_pos h1]
      exact ⟨(ch :: rest).reverse ++ acc, by simp⟩
    · rw [if_neg h1]
      by_cases h2 : ch = '.'
      · rw [if_pos h2]
        exact ⟨rest.reverse, by simp [h2]⟩
      · rw [if_neg h2]
        obtain ⟨t, ht⟩ := ih (ch :: acc)
        exact ⟨t, by rw [ht]; simp⟩

/-- Removing a suffix by its length and appending it again. -/
theorem take_append_suffix (t e d : List Char) (h : t ++ e = d) :
    d.take (d.length - e.length) ++ e = d := by
  subst h
  have hlen : (t ++ e).length - e.length = t.length := by
    rw [List.length_append]
    omega
  rw [hlen, List.take_left]

/-- The file name is its base name followed by its extension. -/
theorem baseNameOf_append_Ext (baseFileName : String) :
    baseNameOf baseFileName ++ Ext baseFileName = baseFileName := by
  obtain ⟨t, ht⟩ := extScan_suffix baseFileName.data.reverse []
  rw [List.reverse_reverse, List.append_nil] at ht
  apply String.ext
  rw [String.data_append]
  have hE : (Ext baseFileName).data = extScan baseFileName.data.reverse [] := rfl
  have hB : (baseNameOf baseFileName).data = baseFileName.data.take
      (baseFileName.data.length - (Ext baseFileName).data.length) := rfl
  rw [hB, hE]
  exact take_append_suffix t _ _ ht

/-- The loop returns the first free candidate at or after its starting number, when the fuel
reaches it. -/
theorem nextFrom_least (pathExists : String → Bool) (join : String → String → String)
    (base : String) (fuel start n : Nat) (hsn : start ≤ n)
    (hfree : pathExists (outputFilePath join base n) = false)
    (hbusy : ∀ k, start ≤ k → k < n → pathExists (outputFilePath join base k) = true)
    (hfuel : n - start < fuel) :
    nextFrom pathExists join base fuel start = some (outputFilePath join base n) := by
  induction fuel generalizing start with
  | zero => omega
  | succ fuel ih =>
    unfold nextFrom
    by_cases he : start = n
    · subst he
      rw [hfree]
      rfl
    · rw [hbusy start (le_refl _) (by omega)]
      simp only [if_true]
      exact ih (start + 1) (by omega) (fun k h1 h2 => hbusy k (by omega) h2) (by omega)

/-- Whatever the loop returns is the first free candidate at or after its starting
number. -/
theorem nextFrom_sound (pathExists : String → Bool) (join : String → String → String)
    (base : String) (fuel start : Nat) (p : String)
    (h : nextFrom pathExists join base fuel start = some p) :
    ∃ n, start ≤ n ∧ p = outputFilePath join base n ∧ pathExists p = false ∧
      ∀ k, start ≤ k → k < n → pathExists (outputFilePath join base k) = true := by
  induction fuel generalizing start with
  | zero => exact absurd h (by simp [nextFrom])
  | succ fuel ih =>
    unfold nextFrom at h
    by_cases he : pathExists (outputFilePath join base start) = true
    · rw [he] at h
      simp only [if_true] at h
      obtain ⟨n, h1, h2, h3, h4⟩ := ih (start + 1) h
      refine ⟨n, by omega, h2, h3, fun k a1 a2 => ?_⟩
      by_cases hk : k = start
      · rw [hk]; exact he
      · exact h4 k (by omega) a2
    · rw [Bool.not_eq_true] at he
      rw [he] at h
      simp only [Bool.false_eq_true, if_false, Option.some.injEq] at h
      exact ⟨start, le_refl _, h.symm, by rw [← h]; exact he, fun k a1 a2 => by omega⟩

/-! ## The claims -/

/-- C1 as stated fails: the kept pixel of `deepImage` has luminance 6, at most 150, yet its
red sample `0x1234` is stored as `0x12` and read back as `0x1212`. -/
theorem C1_counterexample :
    (Point.mk 0 0).In deepImage.Bounds ∧ rgbToGray (deepImage.At 0 0) ≤ 150 ∧
    (removeWhiteBackground deepImage).At 0 0 = ⟨0x1212, 0, 0, 0xffff⟩ ∧
    (removeWhiteBackground deepImage).At 0 0 ≠ deepImage.At 0 0 := by
  decide

/-- C1 (amended): inside the bounds `removeWhiteBackground` stores the all-zero pixel when
`rgbToGray` of the source pixel exceeds 150, and otherwise the source pixel reduced to the
high byte of each of its four 16-bit samples; when the source pixel is an 8-bit `color.RGBA`
value the stored pixel is that value and reads back as the source colour, alpha included. -/
theorem C1_removeWhiteBackground_pixel (im : Image) (x y : Int)
    (hin : (Point.mk x y).In im.Bounds) :
    (rgbToGray (im.At x y) > 150 →
      (removeWhiteBackground im).RGBAAt x y = ⟨0, 0, 0, 0⟩) ∧
    (rgbToGray (im.At x y) ≤ 150 →
      (removeWhiteBackground im).RGBAAt x y =
        ⟨uint8 ((im.At x y).r >>> 8), uint8 ((im.At x y).g >>> 8),
          uint8 ((im.At x y).b >>> 8), uint8 ((im.At x y).a >>> 8)⟩) ∧
    (rgbToGray (im.At x y) ≤ 150 →
      ∀ c : RGBA, c.R < 256 → c.G < 256 → c.B < 256 → c.A < 256 → im.At x y = c.RGBA →
        (removeWhiteBackground im).RGBAAt x y = c ∧
        (removeWhiteBackground im).At x y = im.At x y) := by
  obtain ⟨hR, hP⟩ := removeWhiteBackground_spec im
  have hpix : (removeWhiteBackground im).RGBAAt x y =
      if isBackground threshold (im.At x y) then rgbaModel Transparent
      else rgbaModel (im.At x y) := by
    unfold RGBAImage.RGBAAt
    rw [hR, if_pos hin, hP x y, if_pos hin]
  refine ⟨fun hg => ?_, fun hg => ?_, fun hg c h1 h2 h3 h4 hc => ?_⟩
  · rw [hpix]
    have : isBackground threshold (im.At x y) = true := by
      simp [isBackground, threshold, hg]
    rw [if_pos this]
    rfl
  · rw [hpix]
    have : ¬ isBackground threshold (im.At x y) = true := by
      simp [isBackground, threshold, hg]
    rw [if_neg this]
    rfl
  · have hb : ¬ isBackground threshold (im.At x y) = true := by
      simp [isBackground, threshold, hg]
    have e : (removeWhiteBackground im).RGBAAt x y = c := by
      rw [hpix, if_neg hb, hc, rgbaModel_RGBA c h1 h2 h3 h4]
    refine ⟨e, ?_⟩
    unfold RGBAImage.At
    rw [e, hc]

/-- C1 (amended), at the dark pixel `(1, 1)` of `smallImage`. -/
theorem C1_removeWhiteBackground_pixel_witness :
    (Point.mk 1 1).In smallImage.Bounds ∧ rgbToGray (smallImage.At 1 1) ≤ 150 ∧
    (removeWhiteBackground smallImage).RGBAAt 1 1 = ⟨10, 20, 30, 255⟩ ∧
    (removeWhiteBackground smallImage).At 1 1 = smallImage.At 1 1 :=
  ⟨by decide, by decide,
    (C1_removeWhiteBackground_pixel smallImage 1 1 (by decide)).2.2 (by decide)
      ⟨10, 20, 30, 255⟩ (by decide) (by decide) (by decide) (by decide) (by decide)⟩

/-- C2: for an odd kernel size `k = 2c+1` and a destination pixel at offset `(x, y)` with
`0 ≤ x < w`, `0 ≤ y < h`, kernel construction and `applyGaussianBlur` succeed and each of the
four output channels is the conversion `uint8(S / 257)`, where `S` is `blurSum`: the sum over
exactly the kernel cells whose source coordinate lies inside `[0,w) x [0,h)` of that channel's
16-bit value times `kernel[ky][kx]`, without renormalisation; the conversion is the integer
part for `0 ≤ t < 256`. -/
theorem C2_applyGaussianBlur_channels {F : Type} [LinearOrderedField F] [FloorRing F]
    (m : MathOps F) (src : Image) (sigma : F) (c : Int) (hc : 0 ≤ c)
    (hk : kernelSizeOf sigma = 2 * c + 1) (x y : Int)
    (hx : 0 ≤ x) (hx2 : x < src.Bounds.Max.X - src.Bounds.Min.X)
    (hy : 0 ≤ y) (hy2 : y < src.Bounds.Max.Y - src.Bounds.Min.Y) :
    ∃ K out, buildKernel m sigma = .ok K ∧ applyGaussianBlur m src sigma = .ok out ∧
      out.RGBAAt (x + src.Bounds.Min.X) (y + src.Bounds.Min.Y) =
        ⟨uint8OfFloat (blurSum src K.cell (kernelSizeOf sigma)
            (src.Bounds.Max.X - src.Bounds.Min.X) (src.Bounds.Max.Y - src.Bounds.Min.Y)
            x y Color.r / 257),
          uint8OfFloat (blurSum src K.cell (kernelSizeOf sigma)
            (src.Bounds.Max.X - src.Bounds.Min.X) (src.Bounds.Max.Y - src.Bounds.Min.Y)
            x y Color.g / 257),
          uint8OfFloat (blurSum src K.cell (kernelSizeOf sigma)
            (src.Bounds.Max.X - src.Bounds.Min.X) (src.Bounds.Max.Y - src.Bounds.Min.Y)
            x y Color.b / 257),
          uint8OfFloat (blurSum src K.cell (kernelSizeOf sigma)
            (src.Bounds.Max.X - src.Bounds.Min.X) (src.Bounds.Max.Y - src.Bounds.Min.Y)
            x y Color.a / 257)⟩ ∧
      ∀ t : F, 0 ≤ t → t < 256 → (uint8OfFloat t : Int) = ⌊t⌋ := by
  obtain ⟨K, out, hK, _, hout, _, hP⟩ := applyGaussianBlur_odd m src sigma c hc hk
  refine ⟨K, out, hK, hout, ?_, uint8OfFloat_of_range⟩
  rw [hP x y hx hx2 hy hy2, hk]
  have hk0 : (0 : Int) ≤ 2 * c + 1 := by omega
  simp only [accToRGBA, accSum, sum_tap_eq_blurSum _ _ _ _ _ _ _ _ hk0]

/-- C2, for `sigma = 1` (kernel size 7) at the corner pixel of `smallImage`. -/
theorem C2_applyGaussianBlur_channels_witness :
    ∃ K out, buildKernel realMath (1 : ℝ) = .ok K ∧
      applyGaussianBlur realMath smallImage (1 : ℝ) = .ok out ∧
      (out.RGBAAt 0 0).A = uint8OfFloat (blurSum smallImage K.cell 7 2 2 0 0 Color.a / 257) := by
  obtain ⟨K, out, hK, hout, hpix, _⟩ :=
    C2_applyGaussianBlur_channels realMath smallImage (1 : ℝ) 3 (by norm_num)
      (by rw [kernelSizeOf_one]; norm_num) 0 0 (by decide) (by decide) (by decide) (by decide)
  refine ⟨K, out, hK, hout, ?_⟩
  rw [kernelSizeOf_one] at hpix
  have e : out.RGBAAt 0 0 =
      out.RGBAAt (0 + smallImage.Bounds.Min.X) (0 + smallImage.Bounds.Min.Y) := rfl
  rw [e, hpix]
  rfl

/-- C3: for every `sigma > 0`, in exact real arithmetic, every kernel that
`applyGaussianBlur` builds has non-negative entries whose sum is exactly 1; a kernel is
built whenever the kernel size is odd. -/
theorem C3_kernel_nonneg_sum_one (sigma : ℝ) (hs : 0 < sigma) :
    (kernelSizeOf sigma % 2 = 1 → ∃ K, buildKernel realMath sigma = .ok K) ∧
    ∀ K, buildKernel realMath sigma = .ok K →
      (∀ i j, 0 ≤ i → i < K.size → 0 ≤ j → j < K.size → 0 ≤ K.cell i j) ∧
      ∑ i ∈ Finset.Ico 0 K.size, ∑ j ∈ Finset.Ico 0 K.size, K.cell i j = 1 := by
  have hpos := kernelSizeOf_pos sigma hs
  constructor
  · intro hodd
    obtain ⟨K, hK, _⟩ := buildKernel_odd realMath sigma (kernelSizeOf sigma / 2)
      (by omega) (by omega)
    exact ⟨K, hK⟩
  · intro K hK
    obtain ⟨c, hc, hk⟩ := buildKernel_ok_odd realMath sigma K hK
    obtain ⟨K1, hK1, hS, hcell, hsum⟩ := buildKernel_normalized realMath realMath_pos.1
      realMath_pos.2 sigma hs c hc hk
    have e : K = K1 := by
      rw [hK] at hK1
      exact Except.ok.inj hK1
    subst e
    rw [hS]
    exact ⟨fun i j hi hi2 hj hj2 => le_of_lt (hcell i j hi hi2 hj hj2), hsum⟩

/-- C3, for `sigma = 1`: a kernel is built and its entries sum to 1. -/
theorem C3_kernel_nonneg_sum_one_witness :
    (0 : ℝ) < 1 ∧ ∃ K, buildKernel realMath (1 : ℝ) = .ok K ∧
      ∑ i ∈ Finset.Ico 0 K.size, ∑ j ∈ Finset.Ico 0 K.size, K.cell i j = 1 := by
  refine ⟨by norm_num, ?_⟩
  obtain ⟨K, hK⟩ := (C3_kernel_nonneg_sum_one 1 (by norm_num)).1
    (by rw [kernelSizeOf_one]; decide)
  exact ⟨K, hK, ((C3_kernel_nonneg_sum_one 1 (by norm_num)).2 K hK).2⟩

/-- C4 fails on the code: for `sigma = 0.5` the kernel size is 4, the filling loops write
`kernel[0][4]` and the kernel construction, hence `applyGaussianBlur`, panics with an index
out of range. -/
theorem C4_even_kernel_size_panics {F : Type} [LinearOrderedField F] [FloorRing F]
    (m : MathOps F) (src : Image) :
    (0 : F) < 1 / 2 ∧ kernelSizeOf (1 / 2 : F) = 4 ∧
    (⟨4, fun _ _ => 0⟩ : Kernel F).set (Int.tdiv (-4) 2 + Int.tdiv 4 2) (2 + Int.tdiv 4 2)
      (rawWeight m (1 / 2) 2 (Int.tdiv (-4) 2)) = .error .indexOutOfRange ∧
    buildKernel m (1 / 2 : F) = .error .indexOutOfRange ∧
    applyGaussianBlur m src (1 / 2 : F) = .error .indexOutOfRange := by
  have hb : buildKernel m (1 / 2 : F) = .error .indexOutOfRange :=
    buildKernel_even m (1 / 2) 2 (by norm_num) (by rw [kernelSizeOf_half]; norm_num)
  refine ⟨by norm_num, kernelSizeOf_half, ?_, hb, ?_⟩
  · apply Kernel.set_error
    show ¬ (0 ≤ Int.tdiv (-4) 2 + Int.tdiv 4 2 ∧ Int.tdiv (-4) 2 + Int.tdiv 4 2 < 4 ∧
      0 ≤ 2 + Int.tdiv 4 2 ∧ 2 + Int.tdiv 4 2 < 4)
    decide
  · unfold applyGaussianBlur
    simp only [hb]

/-- C5 as stated fails: for `sigma = 0` the kernel size is 1 and `applyGaussianBlur` returns
an image instead of rejecting the call. -/
theorem C5_counterexample :
    (0 : ℝ) ≤ 0 ∧ kernelSizeOf (0 : ℝ) = 1 ∧
    ∃ out, applyGaussianBlur realMath smallImage (0 : ℝ) = .ok out ∧
      out.Rect = smallImage.Bounds := by
  obtain ⟨_, out, _, _, hout, hR, _⟩ := applyGaussianBlur_odd realMath smallImage (0 : ℝ) 0
    (le_refl _) (by rw [kernelSizeOf_zero]; norm_num)
  exact ⟨le_refl _, kernelSizeOf_zero, out, hout, hR⟩

/-- C5 (amended): `applyGaussianBlur` has no parameter check. For `sigma = 0` it returns an
image with the bounds of its input; for every `sigma < 0` it panics while the kernel is
allocated or filled (negative `make` length or index out of range), before any pixel is
computed, and returns no image. -/
theorem C5_nonpositive_sigma {F : Type} [LinearOrderedField F] [FloorRing F]
    (m : MathOps F) (src : Image) (sigma : F) (hs : sigma ≤ 0) :
    (sigma = 0 → ∃ out, applyGaussianBlur m src sigma = .ok out ∧ out.Rect = src.Bounds) ∧
    (sigma < 0 → ∃ e, buildKernel m sigma = .error e ∧
      applyGaussianBlur m src sigma = .error e) := by
  constructor
  · intro h0
    subst h0
    obtain ⟨_, out, _, _, hout, hR, _⟩ := applyGaussianBlur_odd m src (0 : F) 0
      (le_refl _) (by rw [kernelSizeOf_zero]; norm_num)
    exact ⟨out, hout, hR⟩
  · intro hneg
    have hle := kernelSizeOf_neg sigma hneg
    have hb : ∃ e, buildKernel m sigma = .error e := by
      by_cases h0 : kernelSizeOf sigma < 0
      · exact ⟨_, buildKernel_neg m sigma h0⟩
      · exact ⟨_, buildKernel_even m sigma 0 (le_refl _) (by omega)⟩
    obtain ⟨e, he⟩ := hb
    refine ⟨e, he, ?_⟩
    unfold applyGaussianBlur
    simp only [he]

/-- C5 (amended), for `sigma = -1`: the kernel size is -5 and the allocation panics. -/
theorem C5_nonpositive_sigma_witness :
    (-1 : ℝ) ≤ 0 ∧ ∃ e, buildKernel realMath (-1 : ℝ) = .error e ∧
      applyGaussianBlur realMath smallImage (-1 : ℝ) = .error e :=
  ⟨by norm_num,
    (C5_nonpositive_sigma realMath smallImage (-1 : ℝ) (by norm_num)).2 (by norm_num)⟩

/-- C6: for `sigma > 0` the kernel size is `floor(6*sigma + 1)` (7 for `sigma = 1`),
`gaussian(x, sigma) = exp(-x^2 / (2*sigma^2)) / (sqrt(2*pi) * sigma)`, a kernel is built
whenever the size is odd, and every kernel built is a square matrix of that side whose entry
`kernel[dy + k/2][dx + k/2]`, for offsets `dx`, `dy` in `[-k/2, k/2]`, is
`gaussian(sqrt(dx^2 + dy^2), sigma)` divided by the sum of `gaussian` over all those
offsets. -/
theorem C6_kernel_entries (sigma : ℝ) (hs : 0 < sigma) :
    kernelSizeOf sigma = ⌊6 * sigma + 1⌋ ∧ kernelSizeOf (1 : ℝ) = 7 ∧
    (∀ x : ℝ, gaussian realMath x sigma =
      Real.exp (-x ^ 2 / (2 * sigma ^ 2)) / (Real.sqrt (2 * Real.pi) * sigma)) ∧
    (kernelSizeOf sigma % 2 = 1 → ∃ K, buildKernel realMath sigma = .ok K) ∧
    ∀ K, buildKernel realMath sigma = .ok K →
      K.size = kernelSizeOf sigma ∧
      ∀ dx dy : Int, -(kernelSizeOf sigma / 2) ≤ dx → dx ≤ kernelSizeOf sigma / 2 →
        -(kernelSizeOf sigma / 2) ≤ dy → dy ≤ kernelSizeOf sigma / 2 →
        K.get (dy + kernelSizeOf sigma / 2) (dx + kernelSizeOf sigma / 2) =
          .ok (gaussian realMath (Real.sqrt ((dx : ℝ) ^ 2 + (dy : ℝ) ^ 2)) sigma /
            ∑ y ∈ Finset.Icc (-(kernelSizeOf sigma / 2)) (kernelSizeOf sigma / 2),
              ∑ x ∈ Finset.Icc (-(kernelSizeOf sigma / 2)) (kernelSizeOf sigma / 2),
                gaussian realMath (Real.sqrt ((x : ℝ) ^ 2 + (y : ℝ) ^ 2)) sigma) := by
  have hpos := kernelSizeOf_pos sigma hs
  refine ⟨?_, kernelSizeOf_one, fun x => ?_, fun hodd => ?_, fun K hK => ?_⟩
  · unfold kernelSizeOf truncToInt
    rw [if_pos (by linarith)]
  · unfold gaussian realMath
    simp only
    congr 2
    ring
  · obtain ⟨K, hK, _⟩ := buildKernel_odd realMath sigma (kernelSizeOf sigma / 2)
      (by omega) (by omega)
    exact ⟨K, hK⟩
  · obtain ⟨c, hc, hk⟩ := buildKernel_ok_odd realMath sigma K hK
    obtain ⟨K1, hK1, hS, hcell⟩ := buildKernel_odd realMath sigma c hc hk
    have e : K = K1 := by
      rw [hK] at hK1
      exact Except.ok.inj hK1
    subst e
    have hc2 : kernelSizeOf sigma / 2 = c := by omega
    rw [hc2]
    refine ⟨by rw [hS, hk], fun dx dy h1 h2 h3 h4 => ?_⟩
    rw [Kernel.get_ok K (dy + c) (dx + c) (by rw [hS]; omega),
      hcell (dy + c) (dx + c) (by omega) (by omega) (by omega) (by omega)]
    simp only [add_sub_cancel_right, rawWeight_real]

/-- C6, for `sigma = 1`: the kernel built is a 7 by 7 matrix. -/
theorem C6_kernel_entries_witness :
    (0 : ℝ) < 1 ∧ ∃ K, buildKernel realMath (1 : ℝ) = .ok K ∧ K.size = 7 := by
  refine ⟨by norm_num, ?_⟩
  obtain ⟨K, hK⟩ := (C6_kernel_entries 1 (by norm_num)).2.2.2.1
    (by rw [kernelSizeOf_one]; decide)
  refine ⟨K, hK, ?_⟩
  rw [((C6_kernel_entries 1 (by norm_num)).2.2.2.2 K hK).1, kernelSizeOf_one]

/-- C7 as stated fails: the pixel of `edgeImage` has luminance 150 and is kept as
`(150, 151, 151, 255)`; read back from the 8-bit result it has luminance 151, so the second
application makes it transparent. -/
theorem C7_counterexample :
    (removeWhiteBackground edgeImage).RGBAAt 0 0 = ⟨150, 151, 151, 255⟩ ∧
    (removeWhiteBackground (removeWhiteBackground edgeImage).toImage).RGBAAt 0 0 =
      ⟨0, 0, 0, 0⟩ ∧
    removeWhiteBackground (removeWhiteBackground edgeImage).toImage ≠
      removeWhiteBackground edgeImage := by
  have h1 : (removeWhiteBackground edgeImage).RGBAAt 0 0 = ⟨150, 151, 151, 255⟩ := by decide
  have h2 : (removeWhiteBackground (removeWhiteBackground edgeImage).toImage).RGBAAt 0 0 =
      ⟨0, 0, 0, 0⟩ := by decide
  refine ⟨h1, h2, fun h => ?_⟩
  rw [h, h1] at h2
  exact absurd h2 (by decide)

/-- C7 (amended): on an image whose pixels inside the bounds are 8-bit `color.RGBA` values,
applying `removeWhiteBackground` twice gives the same `*image.RGBA` as applying it once. -/
theorem C7_removeWhiteBackground_idempotent (im : Image)
    (h8 : ∀ x y, (Point.mk x y).In im.Bounds →
      ∃ c : RGBA, c.R < 256 ∧ c.G < 256 ∧ c.B < 256 ∧ c.A < 256 ∧ im.At x y = c.RGBA) :
    removeWhiteBackground (removeWhiteBackground im).toImage = removeWhiteBackground im := by
  obtain ⟨hR, hP⟩ := removeWhiteBackground_spec im
  obtain ⟨hR2, hP2⟩ := removeWhiteBackground_spec (removeWhiteBackground im).toImage
  have hB : (removeWhiteBackground im).toImage.Bounds = im.Bounds := hR
  apply RGBAImage.ext_pix
  · rw [hR2, hB, hR]
  · intro x y
    rw [hP2 x y, hB, hP x y]
    by_cases hin : (Point.mk x y).In im.Bounds
    · rw [if_pos hin, if_pos hin]
      have hat : (removeWhiteBackground im).toImage.At x y =
          ((removeWhiteBackground im).Pix x y).RGBA := by
        show (removeWhiteBackground im).At x y = _
        unfold RGBAImage.At RGBAImage.RGBAAt
        rw [hR, if_pos hin]
      rw [hat, hP x y, if_pos hin]
      by_cases hb : isBackground threshold (im.At x y) = true
      · rw [if_pos hb]
        have hz : (rgbaModel Transparent).RGBA = ⟨0, 0, 0, 0⟩ := by decide
        have hnb : ¬ isBackground threshold (⟨0, 0, 0, 0⟩ : Color) = true := by decide
        rw [hz, if_neg hnb]
        rfl
      · rw [if_neg hb]
        obtain ⟨c, h1, h2, h3, h4, hc⟩ := h8 x y hin
        rw [hc, rgbaModel_RGBA c h1 h2 h3 h4, ← hc, if_neg hb, hc,
          rgbaModel_RGBA c h1 h2 h3 h4]
    · rw [if_neg hin, if_neg hin]

/-- C7 (amended), on `smallImage`, whose pixels are stored with 8 bits per channel. -/
theorem C7_removeWhiteBackground_idempotent_witness :
    removeWhiteBackground (removeWhiteBackground smallImage).toImage =
      removeWhiteBackground smallImage :=
  C7_removeWhiteBackground_idempotent smallImage (fun x y _ => by
    by_cases h : x = 0 ∧ y = 0
    · exact ⟨⟨255, 255, 255, 255⟩, by decide, by decide, by decide, by decide, by
        simp [smallImage, RGBAImage.toImage, RGBAImage.At, RGBAImage.RGBAAt, h, Point.In]⟩
    · refine ⟨⟨10, 20, 30, 255⟩, by decide, by decide, by decide, by decide, ?_⟩
      rename_i hin
      simp only [smallImage, RGBAImage.toImage, RGBAImage.At, RGBAImage.RGBAAt]
      have hin2 : (Point.mk x y).In ⟨⟨0, 0⟩, ⟨2, 2⟩⟩ := hin
      rw [if_pos hin2, if_neg h])

/-- C8 as stated fails: a white pixel is background under threshold 150 and foreground under
the larger threshold 255. -/
theorem C8_counterexample :
    (150 : Nat) ≤ 255 ∧ isBackground 150 ⟨65535, 65535, 65535, 65535⟩ = true ∧
    isBackground 255 ⟨65535, 65535, 65535, 65535⟩ = false := by
  decide

/-- C8 (amended): for thresholds `t1 ≤ t2`, a pixel classified background under `t2` is
classified background under `t1`; raising the threshold never turns a foreground pixel into
background. -/
theorem C8_isBackground_antitone (c : Color) (t1 t2 : Nat) (h : t1 ≤ t2)
    (hb : isBackground t2 c = true) : isBackground t1 c = true := by
  simp only [isBackground, decide_eq_true_eq] at *
  omega

/-- C8 (amended), for a white pixel and the thresholds 150 and 200. -/
theorem C8_isBackground_antitone_witness :
    (150 : Nat) ≤ 200 ∧ isBackground 200 ⟨65535, 65535, 65535, 65535⟩ = true ∧
    isBackground 150 ⟨65535, 65535, 65535, 65535⟩ = true :=
  ⟨by decide, by decide,
    C8_isBackground_antitone ⟨65535, 65535, 65535, 65535⟩ 150 200 (by decide) (by decide)⟩

/-- C9: take an image of width `w` and height `h` whose pixels at all `(x, y)` with
`0 ≤ x < w`, `0 ≤ y < h` have the 8-bit colour `col` with non-zero alpha, and `sigma > 0`
with odd kernel size `2c+1`. In exact real arithmetic `applyGaussianBlur` returns an image
in which every interior pixel (`c ≤ x < w - c`, `c ≤ y < h - c`) equals `col`, and every
other pixel has in each channel a value no larger than the source, strictly smaller in every
channel whose source value is non-zero, in particular in the alpha channel. -/
theorem C9_uniform_image (src : Image) (col : RGBA) (hR : col.R < 256) (hG : col.G < 256)
    (hB : col.B < 256) (hA : col.A < 256) (ha : 0 < col.A) (sigma : ℝ) (hs : 0 < sigma)
    (c : Int) (hc : 0 ≤ c) (hk : kernelSizeOf sigma = 2 * c + 1)
    (hu : ∀ x y, 0 ≤ x → x < src.Bounds.Max.X - src.Bounds.Min.X → 0 ≤ y →
      y < src.Bounds.Max.Y - src.Bounds.Min.Y → src.At x y = col.RGBA) :
    ∃ out, applyGaussianBlur realMath src sigma = .ok out ∧
      ∀ x y, 0 ≤ x → x < src.Bounds.Max.X - src.Bounds.Min.X →
        0 ≤ y → y < src.Bounds.Max.Y - src.Bounds.Min.Y →
        ((c ≤ x ∧ x < src.Bounds.Max.X - src.Bounds.Min.X - c ∧
            c ≤ y ∧ y < src.Bounds.Max.Y - src.Bounds.Min.Y - c) →
          out.RGBAAt (x + src.Bounds.Min.X) (y + src.Bounds.Min.Y) = col) ∧
        (¬ (c ≤ x ∧ x < src.Bounds.Max.X - src.Bounds.Min.X - c ∧
            c ≤ y ∧ y < src.Bounds.Max.Y - src.Bounds.Min.Y - c) →
          (out.RGBAAt (x + src.Bounds.Min.X) (y + src.Bounds.Min.Y)).R ≤ col.R ∧
          (out.RGBAAt (x + src.Bounds.Min.X) (y + src.Bounds.Min.Y)).G ≤ col.G ∧
          (out.RGBAAt (x + src.Bounds.Min.X) (y + src.Bounds.Min.Y)).B ≤ col.B ∧
          (out.RGBAAt (x + src.Bounds.Min.X) (y + src.Bounds.Min.Y)).A < col.A ∧
          (0 < col.R →
            (out.RGBAAt (x + src.Bounds.Min.X) (y + src.Bounds.Min.Y)).R < col.R) ∧
          (0 < col.G →
            (out.RGBAAt (x + src.Bounds.Min.X) (y + src.Bounds.Min.Y)).G < col.G) ∧
          (0 < col.B →
            (out.RGBAAt (x + src.Bounds.Min.X) (y + src.Bounds.Min.Y)).B < col.B)) := by
  obtain ⟨out, hout, hpix⟩ := blur_uniform realMath realMath_pos.1 realMath_pos.2 src col
    hR hG hB hA sigma hs c hc hk hu
  refine ⟨out, hout, fun x y hx hx2 hy hy2 => ?_⟩
  obtain ⟨W, hW0, hW1, hint, hbord, hval⟩ := hpix x y hx hx2 hy hy2
  obtain ⟨r1, r2, r3⟩ := uint8OfFloat_attenuated col.R hR W hW0 hW1
  obtain ⟨g1, g2, g3⟩ := uint8OfFloat_attenuated col.G hG W hW0 hW1
  obtain ⟨b1, b2, b3⟩ := uint8OfFloat_attenuated col.B hB W hW0 hW1
  obtain ⟨_, a2, a3⟩ := uint8OfFloat_attenuated col.A hA W hW0 hW1
  constructor
  · intro hi
    have hW := hint hi
    rw [hval, r2 hW, g2 hW, b2 hW, a2 hW]
  · intro hb
    have hW := hbord hb
    rw [hval]
    exact ⟨r1, g1, b1, a3 hW ha, r3 hW, g3 hW, b3 hW⟩

/-- C9, on the 3x3 image `flatImage` with `sigma = 1/3` (kernel size 3): the centre pixel is
unchanged and the corner pixel loses alpha. -/
theorem C9_uniform_image_witness :
    kernelSizeOf (1 / 3 : ℝ) = 2 * 1 + 1 ∧
    ∃ out, applyGaussianBlur realMath flatImage (1 / 3 : ℝ) = .ok out ∧
      out.RGBAAt 1 1 = ⟨10, 20, 30, 255⟩ ∧ (out.RGBAAt 0 0).A < 255 := by
  have hk : kernelSizeOf (1 / 3 : ℝ) = 2 * 1 + 1 := by
    unfold kernelSizeOf truncToInt
    norm_num
  obtain ⟨out, hout, hpix⟩ := C9_uniform_image flatImage ⟨10, 20, 30, 255⟩ (by decide)
    (by decide) (by decide) (by decide) (by decide) (1 / 3 : ℝ) (by norm_num) 1 (by decide) hk
    (fun x y hx hx2 hy hy2 => by
      have hin : (Point.mk x y).In ⟨⟨0, 0⟩, ⟨3, 3⟩⟩ := ⟨hx, hx2, hy, hy2⟩
      simp only [flatImage, RGBAImage.toImage, RGBAImage.At, RGBAImage.RGBAAt]
      rw [if_pos hin])
  refine ⟨hk, out, hout, ?_, ?_⟩
  · exact (hpix 1 1 (by decide) (by decide) (by decide) (by decide)).1 (by decide)
  · exact ((hpix 0 0 (by decide) (by decide) (by decide) (by decide)).2 (by decide)).2.2.2.1

/-- C10: for an image of width and height at least 1, the result of `removeWhiteBackground`
has the bounds of its input, every image returned by `applyGaussianBlur` has the bounds of
its input, and with the program's `sigma = 1` both `applyGaussianBlur` and the whole pipeline
return an image with the bounds of the input. -/
theorem C10_dimension_preservation {F : Type} [LinearOrderedField F] [FloorRing F]
    (m : MathOps F) (im : Image) (_hw : 1 ≤ im.Bounds.Max.X - im.Bounds.Min.X)
    (_hh : 1 ≤ im.Bounds.Max.Y - im.Bounds.Min.Y) :
    (removeWhiteBackground im).Rect = im.Bounds ∧
    (∀ (s : F) (out : RGBAImage), applyGaussianBlur m im s = .ok out →
      out.Rect = im.Bounds) ∧
    (∃ out, applyGaussianBlur m im (BgRemover.sigma : F) = .ok out ∧
      out.Rect = im.Bounds) ∧
    (∃ out, pipeline m im = .ok out ∧ out.Rect = im.Bounds) := by
  have h7 : kernelSizeOf (BgRemover.sigma : F) = 2 * 3 + 1 := by
    unfold BgRemover.sigma
    rw [kernelSizeOf_one]
    norm_num
  refine ⟨(removeWhiteBackground_spec im).1, fun s out hout => ?_, ?_, ?_⟩
  · obtain ⟨c, hc, hk⟩ := applyGaussianBlur_ok_odd m im s out hout
    obtain ⟨_, out1, _, _, hout1, hR, _⟩ := applyGaussianBlur_odd m im s c hc hk
    rw [hout] at hout1
    rw [Except.ok.inj hout1]
    exact hR
  · obtain ⟨_, out, _, _, hout, hR, _⟩ :=
      applyGaussianBlur_odd m im (BgRemover.sigma : F) 3 (by norm_num) h7
    exact ⟨out, hout, hR⟩
  · obtain ⟨_, out, _, _, hout, hR, _⟩ :=
      applyGaussianBlur_odd m (removeWhiteBackground im).toImage (BgRemover.sigma : F) 3
        (by norm_num) h7
    refine ⟨out, hout, ?_⟩
    rw [hR]
    exact (removeWhiteBackground_spec im).1

/-- C10, on the 2 by 2 image `smallImage` over the reals. -/
theorem C10_dimension_preservation_witness :
    (removeWhiteBackground smallImage).Rect = smallImage.Bounds ∧
    ∃ out, pipeline realMath smallImage = .ok out ∧ out.Rect = smallImage.Bounds :=
  ⟨(C10_dimension_preservation realMath smallImage (by decide) (by decide)).1,
    (C10_dimension_preservation realMath smallImage (by decide) (by decide)).2.2.2⟩

/-- C11: for an odd kernel size `2c+1` the convolution with every source read checked
against `[0,w) x [0,h)` and every kernel read checked against the kernel size returns the
same image as `applyGaussianBlur`, so no read ever takes its failing branch: every kernel
read `kernel[ky][kx]` with `0 ≤ ky, kx < kernelSize` is in range, a source read happens
only when the test on `srcX`, `srcY` passed, and a tap that fails the test is skipped, it
adds nothing to any channel. -/
theorem C11_no_out_of_range_access {F : Type} [LinearOrderedField F] [FloorRing F]
    (m : MathOps F) (src : Image) (sigma : F) (c : Int) (hc : 0 ≤ c)
    (hk : kernelSizeOf sigma = 2 * c + 1) :
    ∃ K out, buildKernel m sigma = .ok K ∧
      applyGaussianBlurChecked m src sigma = .ok out ∧
      applyGaussianBlur m src sigma = .ok out ∧
      ∀ x y ky kx : Int, 0 ≤ ky → ky < kernelSizeOf sigma → 0 ≤ kx →
        kx < kernelSizeOf sigma →
        K.get ky kx = .ok (K.cell ky kx) ∧
        ((x + kx - Int.tdiv (kernelSizeOf sigma) 2 ≥ 0 ∧
          x + kx - Int.tdiv (kernelSizeOf sigma) 2 < src.Bounds.Max.X - src.Bounds.Min.X ∧
          y + ky - Int.tdiv (kernelSizeOf sigma) 2 ≥ 0 ∧
          y + ky - Int.tdiv (kernelSizeOf sigma) 2 < src.Bounds.Max.Y - src.Bounds.Min.Y) →
          src.AtChecked (src.Bounds.Max.X - src.Bounds.Min.X)
              (src.Bounds.Max.Y - src.Bounds.Min.Y)
              (x + kx - Int.tdiv (kernelSizeOf sigma) 2)
              (y + ky - Int.tdiv (kernelSizeOf sigma) 2) =
            .ok (src.At (x + kx - Int.tdiv (kernelSizeOf sigma) 2)
              (y + ky - Int.tdiv (kernelSizeOf sigma) 2))) ∧
        (¬ (x + kx - Int.tdiv (kernelSizeOf sigma) 2 ≥ 0 ∧
          x + kx - Int.tdiv (kernelSizeOf sigma) 2 < src.Bounds.Max.X - src.Bounds.Min.X ∧
          y + ky - Int.tdiv (kernelSizeOf sigma) 2 ≥ 0 ∧
          y + ky - Int.tdiv (kernelSizeOf sigma) 2 < src.Bounds.Max.Y - src.Bounds.Min.Y) →
          ∀ ch : Color → Nat,
            tap src K (kernelSizeOf sigma) (src.Bounds.Max.X - src.Bounds.Min.X)
              (src.Bounds.Max.Y - src.Bounds.Min.Y) x y ch ky kx = 0) := by
  obtain ⟨K, out, hK, hS, hout, _, _⟩ := applyGaussianBlur_odd m src sigma c hc hk
  refine ⟨K, out, hK, ?_, hout, fun x y ky kx h1 h2 h3 h4 => ⟨?_, fun hg => ?_, fun hg ch => ?_⟩⟩
  · rw [applyGaussianBlurChecked_eq, hout]
  · exact Kernel.get_ok K ky kx (by rw [hS, ← hk]; exact ⟨h1, h2, h3, h4⟩)
  · unfold Image.AtChecked
    rw [if_pos hg]
  · unfold tap
    rw [if_neg hg]

/-- C11, for `sigma = 1` on `smallImage`. -/
theorem C11_no_out_of_range_access_witness :
    ∃ out, applyGaussianBlurChecked realMath smallImage (1 : ℝ) = .ok out ∧
      applyGaussianBlur realMath smallImage (1 : ℝ) = .ok out := by
  obtain ⟨_, out, _, h1, h2, _⟩ := C11_no_out_of_range_access realMath smallImage (1 : ℝ) 3
    (by norm_num) (by rw [kernelSizeOf_one]; norm_num)
  exact ⟨out, h1, h2⟩

/-- C12: when every pixel inside the bounds has luminance above the threshold 150,
`removeWhiteBackground` returns an image whose pixels are all `(0,0,0,0)`, and the pipeline
(blur with `sigma = 1`, kernel size 7) returns an all-zero image with the bounds of the
input; `applyGaussianBlur` with `sigma = 1` of any image that is all zero on
`[0,w) x [0,h)` is all zero again. -/
theorem C12_white_image_pipeline {F : Type} [LinearOrderedField F] [FloorRing F]
    (m : MathOps F) (im : Image)
    (hlum : ∀ x y, (Point.mk x y).In im.Bounds → rgbToGray (im.At x y) > 150) :
    (∀ x y, (removeWhiteBackground im).RGBAAt x y = ⟨0, 0, 0, 0⟩) ∧
    kernelSizeOf (BgRemover.sigma : F) = 7 ∧
    (∃ out, pipeline m im = .ok out ∧ out.Rect = im.Bounds ∧
      ∀ x y, out.RGBAAt x y = ⟨0, 0, 0, 0⟩) ∧
    (∀ src : Image,
      (∀ sx sy, 0 ≤ sx → sx < src.Bounds.Max.X - src.Bounds.Min.X → 0 ≤ sy →
        sy < src.Bounds.Max.Y - src.Bounds.Min.Y → src.At sx sy = ⟨0, 0, 0, 0⟩) →
      ∃ out, applyGaussianBlur m src (1 : F) = .ok out ∧ out.Rect = src.Bounds ∧
        ∀ x y, out.RGBAAt x y = ⟨0, 0, 0, 0⟩) := by
  obtain ⟨hR, hP⟩ := removeWhiteBackground_spec im
  have h7 : kernelSizeOf (1 : F) = 2 * 3 + 1 := by
    rw [kernelSizeOf_one]; norm_num
  have hzero : ∀ x y, (removeWhiteBackground im).RGBAAt x y = ⟨0, 0, 0, 0⟩ := by
    intro x y
    unfold RGBAImage.RGBAAt
    rw [hR]
    by_cases hin : (Point.mk x y).In im.Bounds
    · have hb : isBackground threshold (im.At x y) = true := by
        simp [isBackground, threshold, hlum x y hin]
      rw [if_pos hin, hP x y, if_pos hin, if_pos hb]
      rfl
    · rw [if_neg hin]
  refine ⟨hzero, kernelSizeOf_one, ?_, fun src hz => blur_zero m src 1 3 (by norm_num) h7 hz⟩
  obtain ⟨out, hout, hRect, hpix⟩ := blur_zero m (removeWhiteBackground im).toImage 1 3
    (by norm_num) h7 (fun sx sy _ _ _ _ => by
      show (removeWhiteBackground im).At sx sy = _
      unfold RGBAImage.At
      rw [hzero sx sy]
      rfl)
  exact ⟨out, hout, by rw [hRect]; exact hR, hpix⟩

/-- C12, on the 3x3 all-white image with threshold 150 and `sigma = 1`. -/
theorem C12_white_image_pipeline_witness :
    (∀ x y, (removeWhiteBackground whiteImage).RGBAAt x y = ⟨0, 0, 0, 0⟩) ∧
    ∃ out, pipeline realMath whiteImage = .ok out ∧ out.Rect = whiteImage.Bounds ∧
      ∀ x y, out.RGBAAt x y = ⟨0, 0, 0, 0⟩ := by
  have h := C12_white_image_pipeline realMath whiteImage (fun x y hin => by
    have hin2 : (Point.mk x y).In ⟨⟨0, 0⟩, ⟨3, 3⟩⟩ := hin
    have e : whiteImage.At x y = ⟨65535, 65535, 65535, 65535⟩ := by
      simp only [whiteImage, RGBAImage.toImage, RGBAImage.At, RGBAImage.RGBAAt]
      rw [if_pos hin2]
      decide
    rw [e]
    decide)
  exact ⟨h.1, h.2.2.1⟩

/-- C13: for a 1x1 image whose pixel is the 8-bit colour `col` and `sigma = 1`, in exact real
arithmetic, only the centre tap is in bounds and each output channel of `applyGaussianBlur`
is the integer part of `kernel[3][3]` times that channel's 8-bit value, where
`kernel[3][3] = 1 / (sum over d in [-3,3] of exp(-d^2/2))^2` and
`floor(kernel[3][3] * 255) = 40`; the pixel `(0,0,0,255)` of `blackPixel` has luminance 0,
is kept by `removeWhiteBackground`, and the pipeline returns `(0, 0, 0, 40)` for it. -/
theorem C13_single_pixel (src : Image) (col : RGBA) (hR : col.R < 256) (hG : col.G < 256)
    (hB : col.B < 256) (hA : col.A < 256)
    (hw : src.Bounds.Max.X - src.Bounds.Min.X = 1)
    (hh : src.Bounds.Max.Y - src.Bounds.Min.Y = 1) (hpix : src.At 0 0 = col.RGBA) :
    (∃ K out, buildKernel realMath (1 : ℝ) = .ok K ∧
      applyGaussianBlur realMath src (1 : ℝ) = .ok out ∧
      coverage K 7 1 1 0 0 = K.cell 3 3 ∧
      K.cell 3 3 = 1 / (∑ d ∈ Finset.Icc (-3 : Int) 3, Real.exp (-((d : ℝ) ^ 2) / 2)) ^ 2 ∧
      ⌊K.cell 3 3 * 255⌋ = 40 ∧
      ((out.RGBAAt src.Bounds.Min.X src.Bounds.Min.Y).R : Int) = ⌊K.cell 3 3 * (col.R : ℝ)⌋ ∧
      ((out.RGBAAt src.Bounds.Min.X src.Bounds.Min.Y).G : Int) = ⌊K.cell 3 3 * (col.G : ℝ)⌋ ∧
      ((out.RGBAAt src.Bounds.Min.X src.Bounds.Min.Y).B : Int) = ⌊K.cell 3 3 * (col.B : ℝ)⌋ ∧
      ((out.RGBAAt src.Bounds.Min.X src.Bounds.Min.Y).A : Int) =
        ⌊K.cell 3 3 * (col.A : ℝ)⌋) ∧
    rgbToGray (blackPixel.At 0 0) = 0 ∧
    (removeWhiteBackground blackPixel).RGBAAt 0 0 = ⟨0, 0, 0, 255⟩ ∧
    ∃ out, pipeline realMath blackPixel = .ok out ∧ out.RGBAAt 0 0 = ⟨0, 0, 0, 40⟩ := by
  refine ⟨?_, by decide, by decide, ?_⟩
  · obtain ⟨K, out, hK, hout, hc, h40, h1, h2, h3, h4⟩ :=
      blur_single_pixel_real src col hR hG hB hA hw hh hpix
    exact ⟨K, out, hK, hout, coverage_single K 3 (by norm_num), hc, h40, h1, h2, h3, h4⟩
  · have hrect : (removeWhiteBackground blackPixel).Rect = ⟨⟨0, 0⟩, ⟨1, 1⟩⟩ :=
      (removeWhiteBackground_spec blackPixel).1
    have hb : (removeWhiteBackground blackPixel).toImage.Bounds = ⟨⟨0, 0⟩, ⟨1, 1⟩⟩ := hrect
    have hat : (removeWhiteBackground blackPixel).toImage.At 0 0 =
        RGBA.RGBA ⟨0, 0, 0, 255⟩ := by decide
    obtain ⟨K, out, _, hout, _, h40, h1, h2, h3, h4⟩ :=
      blur_single_pixel_real (removeWhiteBackground blackPixel).toImage ⟨0, 0, 0, 255⟩
        (by decide) (by decide) (by decide) (by decide) (by rw [hb]; decide)
        (by rw [hb]; decide) hat
    refine ⟨out, hout, ?_⟩
    rw [hb] at h1 h2 h3 h4
    simp only [Nat.cast_zero, mul_zero, Int.floor_zero] at h1 h2 h3
    have h4' : ((out.RGBAAt 0 0).A : Int) = 40 := by
      rw [h4, ← h40]
      norm_num
    exact rgba_eq_of_fields _ 0 0 0 40 (by exact_mod_cast h1) (by exact_mod_cast h2)
      (by exact_mod_cast h3) (by exact_mod_cast h4')

/-- C13, on the 1x1 image `blackPixel`. -/
theorem C13_single_pixel_witness :
    ∃ out, applyGaussianBlur realMath blackPixel (1 : ℝ) = .ok out ∧
      ((out.RGBAAt 0 0).A : Int) = 40 := by
  obtain ⟨⟨K, out, _, hout, _, _, h40, _, _, _, h4⟩, _⟩ :=
    C13_single_pixel blackPixel ⟨0, 0, 0, 255⟩ (by decide) (by decide) (by decide) (by decide)
      (by decide) (by decide) (by decide)
  refine ⟨out, hout, ?_⟩
  have e : out.RGBAAt 0 0 = out.RGBAAt blackPixel.Bounds.Min.X blackPixel.Bounds.Min.Y := rfl
  rw [e, h4, ← h40]
  norm_num

/-- C14 as stated fails in its last part: the dark pixel of `faintImage` is foreground, yet
its alpha sample `0x1234` is stored as `0x12` and reads back as `0x1212`. -/
theorem C14_counterexample :
    isBackground threshold (faintImage.At 0 0) = false ∧
    ((removeWhiteBackground faintImage).At 0 0).a = 0x1212 ∧
    ((removeWhiteBackground faintImage).At 0 0).a ≠ (faintImage.At 0 0).a := by
  decide

/-- C14 (amended): the classification of `removeWhiteBackground` depends only on the red,
green and blue samples: two pixels that differ only in alpha, alpha 0 included, are
classified the same way under every threshold; a foreground pixel inside the bounds is
stored with the high byte of its alpha sample, which leaves the alpha of an 8-bit colour
unchanged. -/
theorem C14_classification_ignores_alpha (t r g b a1 a2 : Nat) :
    isBackground t ⟨r, g, b, a1⟩ = isBackground t ⟨r, g, b, a2⟩ ∧
    isBackground t ⟨r, g, b, a1⟩ = isBackground t ⟨r, g, b, 0⟩ ∧
    ∀ (im : Image) (x y : Int), (Point.mk x y).In im.Bounds →
      isBackground threshold (im.At x y) = false →
      ((removeWhiteBackground im).RGBAAt x y).A = uint8 ((im.At x y).a >>> 8) ∧
      ∀ c : RGBA, c.R < 256 → c.G < 256 → c.B < 256 → c.A < 256 → im.At x y = c.RGBA →
        ((removeWhiteBackground im).RGBAAt x y).A = c.A ∧
        ((removeWhiteBackground im).At x y).a = (im.At x y).a := by
  refine ⟨rfl, rfl, fun im x y hin hfg => ?_⟩
  obtain ⟨hR, hP⟩ := removeWhiteBackground_spec im
  have hpix : (removeWhiteBackground im).RGBAAt x y = rgbaModel (im.At x y) := by
    unfold RGBAImage.RGBAAt
    rw [hR, if_pos hin, hP x y, if_pos hin, hfg]
    rfl
  refine ⟨by rw [hpix]; rfl, fun c h1 h2 h3 h4 hc => ?_⟩
  have e : (removeWhiteBackground im).RGBAAt x y = c := by
    rw [hpix, hc, rgbaModel_RGBA c h1 h2 h3 h4]
  refine ⟨by rw [e], ?_⟩
  unfold RGBAImage.At
  rw [e, hc]

/-- C15: with the file system a predicate `pathExists`, when `n ≥ 1` is the least number
whose candidate path does not exist, `getNextOutputFileName` run for at least `n`
iterations returns that candidate: the path formed under `saved` from the base name, the
number `n` and the extension, where the file name is the base name followed by the
extension; and whatever the function returns is such a least free candidate. -/
theorem C15_getNextOutputFileName (pathExists : String → Bool)
    (join : String → String → String) (baseFileName : String) (n : Nat) (hn : 1 ≤ n)
    (hfree : pathExists (outputFilePath join baseFileName n) = false)
    (hbusy : ∀ k, 1 ≤ k → k < n → pathExists (outputFilePath join baseFileName k) = true)
    (fuel : Nat) (hfuel : n ≤ fuel) :
    getNextOutputFileName pathExists join baseFileName fuel =
      some (join outputDir (baseNameOf baseFileName ++ toString n ++ Ext baseFileName)) ∧
    outputDir = String.mk ['s', 'a', 'v', 'e', 'd'] ∧
    baseNameOf baseFileName ++ Ext baseFileName = baseFileName ∧
    ∀ (fuel1 : Nat) (p : String),
      getNextOutputFileName pathExists join baseFileName fuel1 = some p →
      p = outputFilePath join baseFileName n ∧ pathExists p = false := by
  refine ⟨?_, by decide, baseNameOf_append_Ext baseFileName, fun fuel1 p hp => ?_⟩
  · exact nextFrom_least pathExists join baseFileName fuel 1 n hn hfree hbusy (by omega)
  · obtain ⟨k, hk1, hk2, hk3, hk4⟩ := nextFrom_sound pathExists join baseFileName fuel1 1 p hp
    have hkn : k = n := by
      rcases Nat.lt_trichotomy k n with h | h | h
      · have := hbusy k hk1 h
        rw [← hk2, hk3] at this
        exact absurd this (by simp)
      · exact h
      · have := hk4 n hn h
        rw [hfree] at this
        exact absurd this (by simp)
    rw [← hkn]
    exact ⟨hk2, hk3⟩

/-- C15, for the base name `out.png` when only `saved/out1.png` exists: the function returns
`saved/out2.png`. -/
theorem C15_getNextOutputFileName_witness :
    sampleExists (outputFilePath sampleJoin sampleBase 2) = false ∧
    sampleExists (outputFilePath sampleJoin sampleBase 1) = true ∧
    outputFilePath sampleJoin sampleBase 2 = sampleNext ∧
    getNextOutputFileName sampleExists sampleJoin sampleBase 5 = some sampleNext := by
  have h2 : outputFilePath sampleJoin sampleBase 2 = sampleNext := by decide
  have hf : sampleExists (outputFilePath sampleJoin sampleBase 2) = false := by decide
  have hb : sampleExists (outputFilePath sampleJoin sampleBase 1) = true := by decide
  refine ⟨hf, hb, h2, ?_⟩
  rw [← h2]
  exact (C15_getNextOutputFileName sampleExists sampleJoin sampleBase 2 (by decide) hf
    (fun k h1 h2 => by
      have e : k = 1 := by omega
      rw [e]
      exact hb) 5 (by decide)).1

/-- C16: for 16-bit samples `r`, `g`, `b` the function `rgbToGray` returns
`floor(floor((r + g + b) / 3) / 256) = floor((r + g + b) / 768)`; the 32-bit sum does not
overflow and the value converted to `uint8` is at most 255, so nothing wraps. -/
theorem C16_rgbToGray_value (c : Color) (hr : c.r ≤ 65535) (hg : c.g ≤ 65535)
    (hb : c.b ≤ 65535) :
    rgbToGray c = (c.r + c.g + c.b) / 3 / 256 ∧
    rgbToGray c = (c.r + c.g + c.b) / 768 ∧
    rgbToGray c ≤ 255 ∧
    c.r + c.g + c.b < 2 ^ 32 ∧
    (((c.r + c.g) % 2 ^ 32 + c.b) % 2 ^ 32) = c.r + c.g + c.b ∧
    (((c.r + c.g + c.b) / 3) >>> 8) ≤ 255 := by
  unfold rgbToGray uint8
  simp only [Nat.shiftRight_eq_div_pow]
  norm_num
  omega

/-- C16, for the white colour. -/
theorem C16_rgbToGray_value_witness :
    rgbToGray ⟨65535, 65535, 65535, 65535⟩ = (65535 + 65535 + 65535) / 768 :=
  (C16_rgbToGray_value ⟨65535, 65535, 65535, 65535⟩ (by decide) (by decide) (by decide)).2.1

/-- C17 fails on the code: `shiftedPixel` is the pixel grid of `originPixel` with bounds
starting at `(1, 0)`. With `sigma = 1` the blur of `originPixel` is `(40, 40, 40, 40)` at
`(0, 0)`, but the blur of `shiftedPixel` at `(1, 0)` is `(0, 0, 0, 0)`: the destination pixel
is written at `x + bounds.Min.X`, while the source is read at `(0, 0)`, outside the bounds,
and not at `(1, 0)`. -/
theorem C17_offset_bounds_not_translated :
    shiftedPixel.Bounds = ⟨⟨1, 0⟩, ⟨2, 1⟩⟩ ∧ originPixel.Bounds = ⟨⟨0, 0⟩, ⟨1, 1⟩⟩ ∧
    shiftedPixel.At 1 0 = originPixel.At 0 0 ∧
    shiftedPixel.At 0 0 = ⟨0, 0, 0, 0⟩ ∧
    ∃ out0 out1, applyGaussianBlur realMath originPixel (1 : ℝ) = .ok out0 ∧
      applyGaussianBlur realMath shiftedPixel (1 : ℝ) = .ok out1 ∧
      out0.RGBAAt 0 0 = ⟨40, 40, 40, 40⟩ ∧ out1.RGBAAt 1 0 = ⟨0, 0, 0, 0⟩ := by
  refine ⟨rfl, rfl, by decide, by decide, ?_⟩
  have h7 : kernelSizeOf (1 : ℝ) = 2 * 3 + 1 := by rw [kernelSizeOf_one]; norm_num
  obtain ⟨K, out0, _, hout0, _, h40, h1, h2, h3, h4⟩ :=
    blur_single_pixel_real originPixel ⟨255, 255, 255, 255⟩ (by decide) (by decide)
      (by decide) (by decide) (by decide) (by decide) (by decide)
  obtain ⟨out1, hout1, _, hz⟩ := blur_zero realMath shiftedPixel (1 : ℝ) 3 (by norm_num) h7
    (fun sx sy a1 a2 a3 a4 => by
      have hb : shiftedPixel.Bounds = ⟨⟨1, 0⟩, ⟨2, 1⟩⟩ := rfl
      rw [hb] at a2 a4
      have e1 : sx = 0 := by simp only at a2; omega
      have e2 : sy = 0 := by simp only at a4; omega
      rw [e1, e2]
      decide)
  refine ⟨out0, out1, hout0, hout1, ?_, hz 1 0⟩
  have hb0 : originPixel.Bounds = ⟨⟨0, 0⟩, ⟨1, 1⟩⟩ := rfl
  rw [hb0] at h1 h2 h3 h4
  have h255 : ((255 : Nat) : ℝ) = 255 := by norm_num
  simp only [h255, h40] at h1 h2 h3 h4
  exact rgba_eq_of_fields _ 40 40 40 40 (by exact_mod_cast h1) (by exact_mod_cast h2)
    (by exact_mod_cast h3) (by exact_mod_cast h4)

/-- C18: a pixel stored in an RGBA image with 8-bit channels `R`, `G`, `B` is classified
background under the threshold 150 exactly when `R + G + B ≥ 452`; inside the bounds
`removeWhiteBackground` then stores the all-zero pixel, and otherwise the pixel itself.
The pixel `(150, 151, 151)` is removed although `(150+151+151)/3 = 150`, and
`(150, 150, 151)` is kept although `150+150+151 > 3*150`. -/
theorem C18_threshold_on_channel_sum (c : RGBA) (hR : c.R < 256) (hG : c.G < 256)
    (hB : c.B < 256) (hA : c.A < 256) :
    (isBackground threshold c.RGBA = true ↔ 452 ≤ c.R + c.G + c.B) ∧
    (∀ (im : Image) (x y : Int), (Point.mk x y).In im.Bounds → im.At x y = c.RGBA →
      (452 ≤ c.R + c.G + c.B → (removeWhiteBackground im).RGBAAt x y = ⟨0, 0, 0, 0⟩) ∧
      (c.R + c.G + c.B < 452 → (removeWhiteBackground im).RGBAAt x y = c)) ∧
    isBackground threshold (RGBA.RGBA ⟨150, 151, 151, 255⟩) = true ∧
    (150 + 151 + 151) / 3 = 150 ∧
    isBackground threshold (RGBA.RGBA ⟨150, 150, 151, 255⟩) = false ∧
    150 + 150 + 151 > 3 * 150 := by
  have hiff : isBackground threshold c.RGBA = true ↔ 452 ≤ c.R + c.G + c.B := by
    rw [RGBA_RGBA_eq c hR hG hB hA]
    unfold isBackground threshold
    rw [rgbToGray_eq_div _ (by show 257 * c.R ≤ 65535; omega)
      (by show 257 * c.G ≤ 65535; omega) (by show 257 * c.B ≤ 65535; omega)]
    simp only [decide_eq_true_eq]
    omega
  refine ⟨hiff, fun im x y hin hc => ?_, by decide, by decide, by decide, by decide⟩
  obtain ⟨hRect, hP⟩ := removeWhiteBackground_spec im
  have hpix : (removeWhiteBackground im).RGBAAt x y =
      if isBackground threshold (im.At x y) then rgbaModel Transparent
      else rgbaModel (im.At x y) := by
    unfold RGBAImage.RGBAAt
    rw [hRect, if_pos hin, hP x y, if_pos hin]
  constructor
  · intro hs
    rw [hpix, hc, if_pos (hiff.2 hs)]
    rfl
  · intro hs
    have hnb : ¬ isBackground threshold c.RGBA = true := fun h => by
      have := hiff.1 h
      omega
    rw [hpix, hc, if_neg hnb, rgbaModel_RGBA c hR hG hB hA]

/-- C18, for the pixel `(150, 151, 151, 255)`. -/
theorem C18_threshold_on_channel_sum_witness :
    isBackground threshold (RGBA.RGBA ⟨150, 151, 151, 255⟩) = true ↔ 452 ≤ 150 + 151 + 151 :=
  (C18_threshold_on_channel_sum ⟨150, 151, 151, 255⟩ (by decide) (by decide) (by decide)
    (by decide)).1

/-- C19: for an image whose pixels on `[0,w) x [0,h)` are 8-bit `color.RGBA` values,
`sigma > 0` with odd kernel size and a destination pixel at offset `(x, y)`, in exact real
arithmetic, `applyGaussianBlur` returns an image in which each of the four channels
satisfies `ChannelInRange`: the accumulated value divided by 257 lies in `[0, 255]`, the
conversion to `uint8` is its integer part, and the output is at most the maximum 8-bit value
of that channel over the source pixels read by the taps that pass the bounds test. -/
theorem C19_blur_never_brightens (src : Image) (sigma : ℝ) (hs : 0 < sigma) (c : Int)
    (hc : 0 ≤ c) (hk : kernelSizeOf sigma = 2 * c + 1)
    (h8 : ∀ sx sy, 0 ≤ sx → sx < src.Bounds.Max.X - src.Bounds.Min.X → 0 ≤ sy →
      sy < src.Bounds.Max.Y - src.Bounds.Min.Y →
      ∃ col : RGBA, col.R < 256 ∧ col.G < 256 ∧ col.B < 256 ∧ col.A < 256 ∧
        src.At sx sy = col.RGBA)
    (x y : Int) (hx : 0 ≤ x) (hx2 : x < src.Bounds.Max.X - src.Bounds.Min.X)
    (hy : 0 ≤ y) (hy2 : y < src.Bounds.Max.Y - src.Bounds.Min.Y) :
    ∃ K out, buildKernel realMath sigma = .ok K ∧
      applyGaussianBlur realMath src sigma = .ok out ∧
      ChannelInRange src K.cell (kernelSizeOf sigma) (src.Bounds.Max.X - src.Bounds.Min.X)
        (src.Bounds.Max.Y - src.Bounds.Min.Y) x y Color.r
        (out.RGBAAt (x + src.Bounds.Min.X) (y + src.Bounds.Min.Y)).R ∧
      ChannelInRange src K.cell (kernelSizeOf sigma) (src.Bounds.Max.X - src.Bounds.Min.X)
        (src.Bounds.Max.Y - src.Bounds.Min.Y) x y Color.g
        (out.RGBAAt (x + src.Bounds.Min.X) (y + src.Bounds.Min.Y)).G ∧
      ChannelInRange src K.cell (kernelSizeOf sigma) (src.Bounds.Max.X - src.Bounds.Min.X)
        (src.Bounds.Max.Y - src.Bounds.Min.Y) x y Color.b
        (out.RGBAAt (x + src.Bounds.Min.X) (y + src.Bounds.Min.Y)).B ∧
      ChannelInRange src K.cell (kernelSizeOf sigma) (src.Bounds.Max.X - src.Bounds.Min.X)
        (src.Bounds.Max.Y - src.Bounds.Min.Y) x y Color.a
        (out.RGBAAt (x + src.Bounds.Min.X) (y + src.Bounds.Min.Y)).A := by
  obtain ⟨K, hK, _, hpos, hsum⟩ := buildKernel_normalized realMath realMath_pos.1
    realMath_pos.2 sigma hs c hc hk
  obtain ⟨K1, out, hK1, _, hout, _, hP⟩ := applyGaussianBlur_odd realMath src sigma c hc hk
  have e : K1 = K := by
    rw [hK1] at hK
    exact Except.ok.inj hK
  subst e
  have hk0 : (0 : Int) ≤ 2 * c + 1 := by omega
  have hnn : ∀ i j, 0 ≤ i → i < 2 * c + 1 → 0 ≤ j → j < 2 * c + 1 → 0 ≤ K1.cell i j :=
    fun i j a1 a2 a3 a4 => le_of_lt (hpos i j a1 a2 a3 a4)
  have hpixel := hP x y hx hx2 hy hy2
  rw [hk]
  refine ⟨K1, out, hK1, hout, ?_, ?_, ?_, ?_⟩
  · have hv : (out.RGBAAt (x + src.Bounds.Min.X) (y + src.Bounds.Min.Y)).R =
        uint8OfFloat (blurSum src K1.cell (2 * c + 1) (src.Bounds.Max.X - src.Bounds.Min.X)
          (src.Bounds.Max.Y - src.Bounds.Min.Y) x y Color.r / 0x101) := by
      rw [hpixel, ← sum_tap_eq_blurSum src K1 _ _ _ x y Color.r hk0]
      rfl
    rw [hv]
    exact channelInRange_of_kernel src K1 c _ _ x y hc Color.r hnn hsum
      (fun sx sy a1 a2 a3 a4 => by
        obtain ⟨col, h1, h2, h3, h4, hcol⟩ := h8 sx sy a1 a2 a3 a4
        exact ⟨col.R, h1, by rw [hcol, RGBA_RGBA_eq col h1 h2 h3 h4]⟩) hx hx2 hy hy2
  · have hv : (out.RGBAAt (x + src.Bounds.Min.X) (y + src.Bounds.Min.Y)).G =
        uint8OfFloat (blurSum src K1.cell (2 * c + 1) (src.Bounds.Max.X - src.Bounds.Min.X)
          (src.Bounds.Max.Y - src.Bounds.Min.Y) x y Color.g / 0x101) := by
      rw [hpixel, ← sum_tap_eq_blurSum src K1 _ _ _ x y Color.g hk0]
      rfl
    rw [hv]
    exact channelInRange_of_kernel src K1 c _ _ x y hc Color.g hnn hsum
      (fun sx sy a1 a2 a3 a4 => by
        obtain ⟨col, h1, h2, h3, h4, hcol⟩ := h8 sx sy a1 a2 a3 a4
        exact ⟨col.G, h2, by rw [hcol, RGBA_RGBA_eq col h1 h2 h3 h4]⟩) hx hx2 hy hy2
  · have hv : (out.RGBAAt (x + src.Bounds.Min.X) (y + src.Bounds.Min.Y)).B =
        uint8OfFloat (blurSum src K1.cell (2 * c + 1) (src.Bounds.Max.X - src.Bounds.Min.X)
          (src.Bounds.Max.Y - src.Bounds.Min.Y) x y Color.b / 0x101) := by
      rw [hpixel, ← sum_tap_eq_blurSum src K1 _ _ _ x y Color.b hk0]
      rfl
    rw [hv]
    exact channelInRange_of_kernel src K1 c _ _ x y hc Color.b hnn hsum
      (fun sx sy a1 a2 a3 a4 => by
        obtain ⟨col, h1, h2, h3, h4, hcol⟩ := h8 sx sy a1 a2 a3 a4
        exact ⟨col.B, h3, by rw [hcol, RGBA_RGBA_eq col h1 h2 h3 h4]⟩) hx hx2 hy hy2
  · have hv : (out.RGBAAt (x + src.Bounds.Min.X) (y + src.Bounds.Min.Y)).A =
        uint8OfFloat (blurSum src K1.cell (2 * c + 1) (src.Bounds.Max.X - src.Bounds.Min.X)
          (src.Bounds.Max.Y - src.Bounds.Min.Y) x y Color.a / 0x101) := by
      rw [hpixel, ← sum_tap_eq_blurSum src K1 _ _ _ x y Color.a hk0]
      rfl
    rw [hv]
    exact channelInRange_of_kernel src K1 c _ _ x y hc Color.a hnn hsum
      (fun sx sy a1 a2 a3 a4 => by
        obtain ⟨col, h1, h2, h3, h4, hcol⟩ := h8 sx sy a1 a2 a3 a4
        exact ⟨col.A, h4, by rw [hcol, RGBA_RGBA_eq col h1 h2 h3 h4]⟩) hx hx2 hy hy2

/-- C19, for `sigma = 1` at the corner pixel of `smallImage`: the output alpha is at most
255. -/
theorem C19_blur_never_brightens_witness :
    (0 : ℝ) < 1 ∧ ∃ out, applyGaussianBlur realMath smallImage (1 : ℝ) = .ok out ∧
      ((out.RGBAAt 0 0).A : Int) ≤ 255 := by
  refine ⟨by norm_num, ?_⟩
  obtain ⟨K, out, _, hout, _, _, _, ha⟩ := C19_blur_never_brightens smallImage (1 : ℝ)
    (by norm_num) 3 (by norm_num) (by rw [kernelSizeOf_one]; norm_num)
    (fun sx sy _ _ _ _ => by
      by_cases hin : (Point.mk sx sy).In ⟨⟨0, 0⟩, ⟨2, 2⟩⟩
      · by_cases h0 : sx = 0 ∧ sy = 0
        · exact ⟨⟨255, 255, 255, 255⟩, by decide, by decide, by decide, by decide, by
            simp only [smallImage, RGBAImage.toImage, RGBAImage.At, RGBAImage.RGBAAt]
            rw [if_pos hin, if_pos h0]⟩
        · exact ⟨⟨10, 20, 30, 255⟩, by decide, by decide, by decide, by decide, by
            simp only [smallImage, RGBAImage.toImage, RGBAImage.At, RGBAImage.RGBAAt]
            rw [if_pos hin, if_neg h0]⟩
      · exact ⟨⟨0, 0, 0, 0⟩, by decide, by decide, by decide, by decide, by
          simp only [smallImage, RGBAImage.toImage, RGBAImage.At, RGBAImage.RGBAAt]
          rw [if_neg hin]⟩)
    0 0 (by decide) (by decide) (by decide) (by decide)
  refine ⟨out, hout, ?_⟩
  have e : out.RGBAAt 0 0 =
      out.RGBAAt (0 + smallImage.Bounds.Min.X) (0 + smallImage.Bounds.Min.Y) := rfl
  rw [e]
  have h := ha.2.2.2.1 255 (fun ky kx _ _ _ _ hg => by
    have hin : (Point.mk (0 + kx - kernelSizeOf (1 : ℝ) / 2)
        (0 + ky - kernelSizeOf (1 : ℝ) / 2)).In ⟨⟨0, 0⟩, ⟨2, 2⟩⟩ :=
      ⟨hg.1, hg.2.1, hg.2.2.1, hg.2.2.2⟩
    simp only [smallImage, RGBAImage.toImage, RGBAImage.At, RGBAImage.RGBAAt]
    rw [if_pos hin]
    split_ifs <;> decide)
  exact_mod_cast h

/-- C20: for `sigma > 0` with odd kernel size `k = 2c+1`, in exact real arithmetic, the
kernel is built, it is symmetric under transposition and under both reflections
(`kernel[i][j] = kernel[j][i] = kernel[k-1-i][j] = kernel[i][k-1-j]`), every entry is
strictly positive, and the centre entry `kernel[k/2][k/2]` is strictly greater than every
other entry. -/
theorem C20_kernel_symmetry (sigma : ℝ) (hs : 0 < sigma) (c : Int) (hc : 0 ≤ c)
    (hk : kernelSizeOf sigma = 2 * c + 1) :
    ∃ K, buildKernel realMath sigma = .ok K ∧ K.size = kernelSizeOf sigma ∧
      ∀ i j, 0 ≤ i → i < kernelSizeOf sigma → 0 ≤ j → j < kernelSizeOf sigma →
        K.cell i j = K.cell j i ∧
        K.cell i j = K.cell (kernelSizeOf sigma - 1 - i) j ∧
        K.cell i j = K.cell i (kernelSizeOf sigma - 1 - j) ∧
        0 < K.cell i j ∧
        (¬ (i = kernelSizeOf sigma / 2 ∧ j = kernelSizeOf sigma / 2) →
          K.cell i j < K.cell (kernelSizeOf sigma / 2) (kernelSizeOf sigma / 2)) := by
  obtain ⟨K, hK, hS, hcell⟩ := buildKernel_odd realMath sigma c hc hk
  have hpos := rawSum_pos realMath realMath_pos.1 realMath_pos.2 sigma hs c hc
  have hc2 : kernelSizeOf sigma / 2 = c := by omega
  rw [hc2, hk]
  refine ⟨K, hK, hS, fun i j hi hi2 hj hj2 => ⟨?_, ?_, ?_, ?_, fun hne => ?_⟩⟩
  · rw [hcell i j hi hi2 hj hj2, hcell j i hj hj2 hi hi2,
      rawWeight_congr realMath sigma (j - c) (i - c) (i - c) (j - c) (by ring)]
  · rw [hcell i j hi hi2 hj hj2, hcell (2 * c + 1 - 1 - i) j (by omega) (by omega) hj hj2,
      rawWeight_congr realMath sigma (j - c) (i - c) (j - c) (2 * c + 1 - 1 - i - c) (by ring)]
  · rw [hcell i j hi hi2 hj hj2, hcell i (2 * c + 1 - 1 - j) hi hi2 (by omega) (by omega),
      rawWeight_congr realMath sigma (j - c) (i - c) (2 * c + 1 - 1 - j - c) (i - c) (by ring)]
  · rw [hcell i j hi hi2 hj hj2]
    exact div_pos (rawWeight_pos realMath realMath_pos.1 realMath_pos.2 sigma hs _ _) hpos
  · rw [hcell i j hi hi2 hj hj2, hcell c c hc (by omega) hc (by omega), sub_self]
    apply div_lt_div_of_pos_right _ hpos
    exact rawWeight_real_lt_centre sigma hs (j - c) (i - c) (fun h => hne ⟨by omega, by omega⟩)

/-- C20, for `sigma = 1`: the corner entry of the 7 by 7 kernel is positive and smaller than
the centre entry. -/
theorem C20_kernel_symmetry_witness :
    (0 : ℝ) < 1 ∧ ∃ K, buildKernel realMath (1 : ℝ) = .ok K ∧
      0 < K.cell 0 0 ∧ K.cell 0 0 = K.cell 6 6 ∧ K.cell 0 0 < K.cell 3 3 := by
  have h7 : kernelSizeOf (1 : ℝ) = 2 * 3 + 1 := by rw [kernelSizeOf_one]; norm_num
  obtain ⟨K, hK, _, h⟩ := C20_kernel_symmetry 1 (by norm_num) 3 (by norm_num) h7
  have h00 := h 0 0 (by norm_num) (by rw [kernelSizeOf_one]; norm_num) (by norm_num)
    (by rw [kernelSizeOf_one]; norm_num)
  have h06 := h 0 6 (by norm_num) (by rw [kernelSizeOf_one]; norm_num) (by norm_num)
    (by rw [kernelSizeOf_one]; norm_num)
  rw [kernelSizeOf_one] at h00 h06
  norm_num at h00 h06
  refine ⟨by norm_num, K, hK, h00.2.2.1, ?_, h00.2.2.2⟩
  rw [h00.2.1, h06.2.1]

end BgRemover
